import Mathlib

/-!
# Per-corner normals (libigl `per_corner_normals.cpp`)

A shallow embedding of the two corner-normal engines of
`igl/per_corner_normals.cpp`:

* the fixed-valence engine (overload taking `F`, `FN`, `VF`, `corner_threshold`);
* the polygonal engine (overload taking `V`, `I`, `C`, `corner_threshold`).

Scalars are the elements of a linearly ordered field `K` (exact arithmetic);
the two library functions the code calls on scalars, `cos` and `sqrt`, and the
constant `PI`, are carried by a `Numeric K` record, so every definition is
executable once such a record is supplied.  Theorems that depend on what `cos`
and `sqrt` compute are stated at `K = ℝ` with `Real.cos`, `Real.sqrt`, `Real.pi`;
where only the value of the comparison `cos(corner_threshold*PI/180)` matters, the
cosine and `PI` are left arbitrary and the hypothesis is on that value.

Matrices with three columns (`FN`, `CN`, `N`, `NN`) are lists of rows; reading a
row outside the matrix (undefined behaviour in the source) yields the zero row
and writing outside it changes nothing.
-/

namespace PerCornerNormals

/-- One row of an `m × 3` matrix: a 3-vector. -/
abbrev Vec3 (K : Type) := K × K × K

/-- The scalar library the source relies on: `cos`, `sqrt` and the constant `PI`. -/
structure Numeric (K : Type) where
  cos : K → K
  sqrt : K → K
  PI : K

/-- An integer matrix such as the face table `F`: `rows`, `cols` and the
coefficient accessor `F(i,j)`. -/
structure IndexMatrix where
  rows : Nat
  cols : Nat
  coeff : Nat → Nat → Nat

section Defs

variable {K : Type} [LinearOrderedField K]

/-- Dot product `a.dot(b)`. -/
def dot (a b : Vec3 K) : K :=
  a.1 * b.1 + a.2.1 * b.2.1 + a.2.2 * b.2.2

/-- Squared norm `v.squaredNorm()`. -/
def squaredNorm (v : Vec3 K) : K := dot v v

/-- Euclidean norm `v.norm()`. -/
def norm (num : Numeric K) (v : Vec3 K) : K := num.sqrt (squaredNorm v)

/-- Modelled from the spec: Eigen's in-place `normalize()` is not among the
sources.  The spec's rows are "either a unit vector or the zero vector" and the
threshold-0 regression expects zero output, so a vector of squared norm zero is
left unchanged and any other vector is divided by its norm (this is also what
Eigen does: `z = squaredNorm(); if (z > 0) derived() /= sqrt(z);`). -/
def normalize (num : Numeric K) (v : Vec3 K) : Vec3 K :=
  let z := squaredNorm v
  if 0 < z then (v.1 / num.sqrt z, v.2.1 / num.sqrt z, v.2.2 / num.sqrt z) else v

/-- Row access `M.row(r)` for a three-column matrix held as a list of rows. -/
def row (M : List (Vec3 K)) (r : Nat) : Vec3 K := M.getD r 0

/-- Adjacency access `VF[v]`: the list of faces incident on vertex `v`. -/
def incident (VF : List (List Nat)) (v : Nat) : List Nat := VF.getD v []

/-- The comparison value `cos(corner_threshold*PI/180)`. -/
def cosThreshold (num : Numeric K) (corner_threshold : K) : K :=
  num.cos (corner_threshold * num.PI / 180)

/-- The test `dp > cos(corner_threshold*PI/180)` with `dp = fn.dot(ifn)`. -/
def passes (num : Numeric K) (corner_threshold : K) (fn ifn : Vec3 K) : Bool :=
  decide (cosThreshold num corner_threshold < dot fn ifn)

/-! ### Fixed-valence engine (source lines 56-104) -/

/-- Lines 85-99: the loop over the faces sharing the vertex of corner `r`;
each passing face normal is added to `CN.row(r)` in place. -/
def accumulateIncident (num : Numeric K) (FN : List (Vec3 K)) (corner_threshold : K)
    (fn : Vec3 K) (incident_faces : List Nat) (r : Nat) (CN : List (Vec3 K)) :
    List (Vec3 K) :=
  incident_faces.foldl
    (fun CN k =>
      let ifn := row FN k
      if passes num corner_threshold fn ifn then CN.set r (row CN r + ifn) else CN)
    CN

/-- Lines 83-101: the body of the corner loop for corner `j` of face `i`. -/
def cornerStep (num : Numeric K) (F : IndexMatrix) (FN : List (Vec3 K))
    (VF : List (List Nat)) (corner_threshold : K) (i : Nat) (fn : Vec3 K)
    (CN : List (Vec3 K)) (j : Nat) : List (Vec3 K) :=
  let n := F.cols
  let incident_faces := incident VF (F.coeff i j)
  let CN := accumulateIncident num FN corner_threshold fn incident_faces (i * n + j) CN
  CN.set (i * n + j) (normalize num (row CN (i * n + j)))

/-- Lines 78-102: the body of the face loop for face `i`. -/
def faceStep (num : Numeric K) (F : IndexMatrix) (FN : List (Vec3 K))
    (VF : List (List Nat)) (corner_threshold : K) (CN : List (Vec3 K)) (i : Nat) :
    List (Vec3 K) :=
  let fn := row FN i
  (List.range F.cols).foldl (cornerStep num F FN VF corner_threshold i fn) CN

/-- The overload `per_corner_normals(V, F, FN, VF, corner_threshold, CN)`;
`V` is unused by the source. -/
def per_corner_normals (num : Numeric K) (F : IndexMatrix) (FN : List (Vec3 K))
    (VF : List (List Nat)) (corner_threshold : K) : List (Vec3 K) :=
  let m := F.rows
  let n := F.cols
  (List.range m).foldl (faceStep num F FN VF corner_threshold)
    (List.replicate (m * n) 0)

/-- The gated, unweighted sum the fixed-valence engine is specified to compute
for a corner of a face with normal `fn` at a vertex with incident faces `inc`. -/
def gatedSum (num : Numeric K) (FN : List (Vec3 K)) (corner_threshold : K)
    (fn : Vec3 K) (inc : List Nat) : Vec3 K :=
  ((inc.filter (fun k => passes num corner_threshold fn (row FN k))).map (row FN)).sum

/-- Modelled from the spec: `vertex_triangle_adjacency`, which the wrapper
overloads (lines 27 and 46) call to build `VF` from the face table, is not among
the sources.  Its result is characterised by the spec's adjacency invariant,
"a face id appears in `VF[v]` iff `v` appears as a corner of that face": every
face is listed at the vertex of each of its corners, and every listed face id
is a face having that vertex as a corner. -/
def IsAdjacency (F : IndexMatrix) (VF : List (List Nat)) : Prop :=
  (∀ i, i < F.rows → ∀ j, j < F.cols → i ∈ incident VF (F.coeff i j)) ∧
  (∀ v, v < VF.length → ∀ k ∈ incident VF v,
    k < F.rows ∧ ∃ j, j < F.cols ∧ F.coeff k j = v)

instance (F : IndexMatrix) (VF : List (List Nat)) : Decidable (IsAdjacency F VF) := by
  unfold IsAdjacency; infer_instance

/-- The overload `per_corner_normals(V, F, FN, corner_threshold, CN)` (lines 36-48):
it builds `VF` with `vertex_triangle_adjacency(V.rows(), F, VF, VFi)`, which is not
among the sources and is a parameter here, and calls the engine. -/
def per_corner_normals_FN (num : Numeric K)
    (vertex_triangle_adjacency : Nat → IndexMatrix → List (List Nat)) (nV : Nat)
    (F : IndexMatrix) (FN : List (Vec3 K)) (corner_threshold : K) : List (Vec3 K) :=
  let VF := vertex_triangle_adjacency nV F
  per_corner_normals num F FN VF corner_threshold

/-! ### Polygonal engine (source lines 116-193)

The external collaborators `per_face_normals(V,I,C,FN,VV,FF,J)` and
`doublearea(VV,FF,AA)` are not part of this file of the source; their outputs
`FN`, `FF` and `AA` are parameters of the model, and `V` enters only through
`V.rows()`.  `VV` and `J` are passed through unchanged by the source. -/

/-- Coefficient access `I(k)` or `C(k)` for an index vector. -/
def idx (I : List Nat) (k : Nat) : Nat := I.getD k 0

/-- Weight access `AA(n)`. -/
def weight (AA : List K) (n : Nat) : K := AA.getD n 0

/-- Lines 136-145: `VF[I(C(p)+i)].push_back(p)` for every polygon `p` and local
corner `i`, starting from `V.rows()` empty lists. -/
def vertexPolygonAdjacency (nV : Nat) (I C : List Nat) : List (List Nat) :=
  let m := C.length - 1
  (List.range m).foldl
    (fun VF p =>
      let np := idx C (p + 1) - idx C p
      (List.range np).foldl
        (fun VF i =>
          let v := idx I (idx C p + i)
          VF.set v (incident VF v ++ [p]))
        VF)
    (List.replicate nV [])

/-- Resizing `M.resize(rows,3)`: a matrix of `rows` rows whose contents are whatever the
memory held (`uninit`). -/
def resized (rows : Nat) (uninit : Nat → Vec3 K) : List (Vec3 K) :=
  (List.range rows).map uninit

/-- Lines 157-167: the loop over the polygons sharing the vertex of corner `r`;
each passing face normal is added, scaled by `AA(n)`, to `N.row(r)` in place. -/
def accumulateWeighted (num : Numeric K) (FN : List (Vec3 K)) (AA : List K)
    (corner_threshold : K) (fn : Vec3 K) (incident_faces : List Nat) (r : Nat)
    (N : List (Vec3 K)) : List (Vec3 K) :=
  incident_faces.foldl
    (fun N n =>
      let ifn := row FN n
      if passes num corner_threshold fn ifn then N.set r (row N r + weight AA n • ifn)
      else N)
    N

/-- Lines 155-168: the body of the corner loop for local corner `i` of polygon `p`. -/
def polyCornerStep (num : Numeric K) (I C : List Nat) (FN : List (Vec3 K)) (AA : List K)
    (VF : List (List Nat)) (corner_threshold : K) (p : Nat) (fn : Vec3 K)
    (N : List (Vec3 K)) (i : Nat) : List (Vec3 K) :=
  let r := idx C p + i
  let N := N.set r 0
  let N := accumulateWeighted num FN AA corner_threshold fn (incident VF (idx I r)) r N
  N.set r (normalize num (row N r))

/-- Lines 150-169: the body of the polygon loop for polygon `p`. -/
def polyFaceStep (num : Numeric K) (I C : List Nat) (FN : List (Vec3 K)) (AA : List K)
    (VF : List (List Nat)) (corner_threshold : K) (N : List (Vec3 K)) (p : Nat) :
    List (Vec3 K) :=
  let np := idx C (p + 1) - idx C p
  let fn := row FN p
  (List.range np).foldl (polyCornerStep num I C FN AA VF corner_threshold p fn) N

/-- Lines 127-170 of the polygonal overload: the per-corner normals `N`. -/
def polygonN (num : Numeric K) (nV : Nat) (I C : List Nat) (corner_threshold : K)
    (FN : List (Vec3 K)) (AA : List K) (uninit : Nat → Vec3 K) : List (Vec3 K) :=
  let m := C.length - 1
  let VF := vertexPolygonAdjacency nV I C
  (List.range m).foldl (polyFaceStep num I C FN AA VF corner_threshold)
    (resized I.length uninit)

/-- Lines 182-188: the body of the reconstruction loop for local corner `i` of
polygon `p`; the state is the running triangle counter `k` and `NN`.  A failed
`assert` (or a read of `FF` past its last row) is the fault `none`. -/
def nnCornerStep (nV : Nat) (I C : List Nat) (FN : List (Vec3 K))
    (FF : List (Nat × Nat × Nat)) (N : List (Vec3 K)) (p np : Nat)
    (st : Option (Nat × List (Vec3 K))) (i : Nat) : Option (Nat × List (Vec3 K)) :=
  match st with
  | none => none
  | some (k, NN) =>
    match FF[k]? with
    | none => none
    | some ff =>
      if ff.1 = idx I (idx C p + ((i + 0) % np)) ∧
         ff.2.1 = idx I (idx C p + ((i + 1) % np)) ∧
         ff.2.2 = nV + p then
        let NN := NN.set (k * 3 + 0) (row N (idx C p + ((i + 0) % np)))
        let NN := NN.set (k * 3 + 1) (row N (idx C p + ((i + 1) % np)))
        let NN := NN.set (k * 3 + 2) (row FN p)
        some (k + 1, NN)
      else none

/-- Lines 176-190: the body of the reconstruction loop for polygon `p`. -/
def nnFaceStep (nV : Nat) (I C : List Nat) (FN : List (Vec3 K))
    (FF : List (Nat × Nat × Nat)) (N : List (Vec3 K))
    (st : Option (Nat × List (Vec3 K))) (p : Nat) : Option (Nat × List (Vec3 K)) :=
  let np := idx C (p + 1) - idx C p
  (List.range np).foldl (nnCornerStep nV I C FN FF N p np) st

/-- Lines 172-192 of the polygonal overload: the per-triangle-corner normals
`NN`, or `none` when an `assert` fails. -/
def polygonNN (nV : Nat) (I C : List Nat) (FN : List (Vec3 K))
    (FF : List (Nat × Nat × Nat)) (N : List (Vec3 K)) (uninit : Nat → Vec3 K) :
    Option (List (Vec3 K)) :=
  let m := C.length - 1
  match (List.range m).foldl (nnFaceStep nV I C FN FF N)
      (some (0, resized (FF.length * 3) uninit)) with
  | none => none
  | some (k, NN) => if k = FF.length then some NN else none

/-- The polygonal overload `per_corner_normals(V,I,C,corner_threshold,N,VV,FF,J,NN)`:
the outputs `N` and `NN`, given the collaborators' `FN`, `FF`, `AA`. -/
def per_corner_normals_polygonal (num : Numeric K) (nV : Nat) (I C : List Nat)
    (corner_threshold : K) (FN : List (Vec3 K)) (FF : List (Nat × Nat × Nat))
    (AA : List K) (uninitN uninitNN : Nat → Vec3 K) :
    Option (List (Vec3 K) × List (Vec3 K)) :=
  let N := polygonN num nV I C corner_threshold FN AA uninitN
  match polygonNN nV I C FN FF N uninitNN with
  | none => none
  | some NN => some (N, NN)

/-- The gated, area-weighted sum the polygonal engine is specified to compute. -/
def weightedSum (num : Numeric K) (FN : List (Vec3 K)) (AA : List K) (corner_threshold : K)
    (fn : Vec3 K) (inc : List Nat) : Vec3 K :=
  ((inc.filter (fun k => passes num corner_threshold fn (row FN k))).map
    (fun k => weight AA k • row FN k)).sum

/-- The offsets `C` are strictly increasing: `C[p+1] > C[p]` for every polygon. -/
def StrictlyIncreasing (C : List Nat) : Prop :=
  ∀ p, p < C.length - 1 → idx C p < idx C (p + 1)

instance (C : List Nat) : Decidable (StrictlyIncreasing C) := by
  unfold StrictlyIncreasing; infer_instance

/-- The value of the running triangle counter `k` of the reconstruction loop on
entry to the body for polygon `p`, local corner `i`: one increment per corner of
every earlier polygon, then `i` increments. -/
def triangleIndex (C : List Nat) (p i : Nat) : Nat :=
  ((List.range p).map (fun q => idx C (q + 1) - idx C q)).sum + i

/-- The row the `assert`s of lines 182-184 require of `FF` for polygon `p`,
local corner `i`. -/
def fanRow (nV : Nat) (I C : List Nat) (p i : Nat) : Nat × Nat × Nat :=
  let np := idx C (p + 1) - idx C p
  (idx I (idx C p + ((i + 0) % np)), idx I (idx C p + ((i + 1) % np)), nV + p)

/-- The triangulator's ordering contract (spec 3 and 4.3): `FF` has one row per
corner, and the row for polygon `p`, local corner `i` is
`(I[C[p] + i mod np], I[C[p] + (i+1) mod np], |V| + p)`. -/
def FanContract (nV : Nat) (I C : List Nat) (FF : List (Nat × Nat × Nat)) : Prop :=
  FF.length = triangleIndex C (C.length - 1) 0 ∧
  ∀ p, p < C.length - 1 → ∀ i, i < idx C (p + 1) - idx C p →
    FF[triangleIndex C p i]? = some (fanRow nV I C p i)

instance (nV : Nat) (I C : List Nat) (FF : List (Nat × Nat × Nat)) :
    Decidable (FanContract nV I C FF) := by
  unfold FanContract; infer_instance

/-- A unit vector: squared norm (equivalently norm) one. -/
def UnitVec (v : Vec3 K) : Prop := squaredNorm v = 1

/-- Distance `(a - b).norm()`, the Euclidean distance between two vectors. -/
def dist (num : Numeric K) (a b : Vec3 K) : K := norm num (a - b)

/-- Line 143: `VF[I(C(p)+i)].push_back(p)`, the body of the inner adjacency loop. -/
def pushCorner (I C : List Nat) (p : Nat) (VF : List (List Nat)) (i : Nat) :
    List (List Nat) :=
  let v := idx I (idx C p + i)
  VF.set v (incident VF v ++ [p])

/-- Lines 139-144: the body of the adjacency loop for polygon `p`. -/
def pushPolygon (I C : List Nat) (VF : List (List Nat)) (p : Nat) : List (List Nat) :=
  let np := idx C (p + 1) - idx C p
  (List.range np).foldl (pushCorner I C p) VF

/-- The number of local corners `i` in `[0, C[p+1]-C[p])` of polygon `p` whose
vertex `I[C[p]+i]` is `v`. -/
def cornerCount (I C : List Nat) (p v : Nat) : Nat :=
  (List.range (idx C (p + 1) - idx C p)).countP (fun i => decide (idx I (idx C p + i) = v))

/-- The polygons `p < q` in ascending order, each repeated once per corner of `p`
equal to `v`: the contents of `VF[v]` after the adjacency loop has scanned the
first `q` polygons. -/
def listedPolygons (I C : List Nat) (v : Nat) : Nat → List Nat
  | 0 => []
  | q + 1 => listedPolygons I C v q ++ List.replicate (cornerCount I C q v) q

/-- Modelled from the spec: the polygon triangulator (the polygonal overload of
`per_face_normals`) is not among the sources.  Per the spec each polygon is fanned
into `np` triangles, "for each polygon, for each corner i in order, triangle
(corner i, corner i+1 mod np, polygon centroid)", the centroid of polygon `p` being
the synthesized vertex `|V| + p`.  These are the triangles of the first `q`
polygons. -/
def fanTriangles (nV : Nat) (I C : List Nat) : Nat → List (Nat × Nat × Nat)
  | 0 => []
  | q + 1 => fanTriangles nV I C q
      ++ (List.range (idx C (q + 1) - idx C q)).map (fanRow nV I C q)

/-- Modelled from the spec: the triangle table `FF` the triangulator returns for
`(I, C)`, the fan triangles of all `m` polygons in order. -/
def fanTriangulation (nV : Nat) (I C : List Nat) : List (Nat × Nat × Nat) :=
  fanTriangles nV I C (C.length - 1)

/-- Lines 147-170 of the polygonal overload run with a given adjacency `VF`: the
polygon loop computing `N`.  `polygonN` is this loop run with the adjacency the
engine has just built. -/
def polygonNLoop (num : Numeric K) (I C : List Nat) (corner_threshold : K)
    (FN : List (Vec3 K)) (AA : List K) (VF : List (List Nat)) (uninit : Nat → Vec3 K) :
    List (Vec3 K) :=
  (List.range (C.length - 1)).foldl (polyFaceStep num I C FN AA VF corner_threshold)
    (resized I.length uninit)

/-- The adjacency `VF2` is `VF1` with every list `VF1[v]` replaced by a permutation
of itself. -/
def PermutedAdjacency (VF1 VF2 : List (List Nat)) : Prop :=
  VF1.length = VF2.length ∧ ∀ v, v < VF1.length → (incident VF1 v).Perm (incident VF2 v)

instance (VF1 VF2 : List (List Nat)) : Decidable (PermutedAdjacency VF1 VF2) := by
  unfold PermutedAdjacency; infer_instance

/-- The cosine as double precision returns it near zero, over a given cosine `cos`:
for `|x| <= 2^-27` the value `cos x >= 1 - x^2/2 >= 1 - 2^-55` lies within half a unit
in the last place of 1 and is returned as exactly 1; elsewhere the value of `cos`
is kept. -/
def cosRoundedNearZero (cos : K → K) (x : K) : K :=
  if |x| ≤ 1 / 2 ^ 27 then 1 else cos x

/-! ### Concrete meshes used to exercise the theorems -/

/-- An integer matrix given by its rows. -/
def IndexMatrix.ofRows (m n : Nat) (rs : List (List Nat)) : IndexMatrix :=
  ⟨m, n, fun i j => (rs.getD i []).getD j 0⟩

/-- A single triangle `(0,1,2)`. -/
def oneTriangle : IndexMatrix := IndexMatrix.ofRows 1 3 [[0, 1, 2]]

/-- Two triangles `(0,1,2)` and `(2,1,3)` sharing the edge `1-2`. -/
def twoTriangles : IndexMatrix := IndexMatrix.ofRows 2 3 [[0, 1, 2], [2, 1, 3]]

/-- Vertex-to-face adjacency of `twoTriangles`. -/
def twoTrianglesVF : List (List Nat) := [[0], [0, 1], [0, 1], [1]]

/-- Corner list of a quad `(0,1,2,3)` followed by a triangle `(0,4,5)`; the two
polygons share vertex `0`. -/
def quadTriI : List Nat := [0, 1, 2, 3, 0, 4, 5]

/-- Polygon offsets of `quadTriI`. -/
def quadTriC : List Nat := [0, 4, 7]

/-- Fan triangulation of the quad-plus-triangle mesh with six vertices: the
centroids are the synthesized vertices `6` and `7`. -/
def quadTriFF : List (Nat × Nat × Nat) :=
  [(0, 1, 6), (1, 2, 6), (2, 3, 6), (3, 0, 6), (0, 4, 7), (4, 5, 7), (5, 0, 7)]

end Defs

section Lemmas

variable {K : Type} [LinearOrderedField K]

theorem row_set_self (M : List (Vec3 K)) (r : Nat) (v : Vec3 K) (h : r < M.length) :
    row (M.set r v) r = v := by
  simp [row, List.getD_eq_getElem?_getD, h]

theorem row_set_of_ne (M : List (Vec3 K)) (r s : Nat) (v : Vec3 K) (h : r ≠ s) :
    row (M.set r v) s = row M s := by
  simp [row, List.getD_eq_getElem?_getD, List.getElem?_set_ne h]

theorem row_of_length_le (M : List (Vec3 K)) (r : Nat) (h : M.length ≤ r) :
    row M r = 0 := by
  simp [row, List.getD_eq_getElem?_getD, List.getElem?_eq_none h]

/-- The incident-face loop touches row `r` only, adding the gated sum to it. -/
theorem accumulateIncident_spec (num : Numeric K) (FN : List (Vec3 K)) (t : K)
    (fn : Vec3 K) (r : Nat) (inc : List Nat) (CN : List (Vec3 K)) (hr : r < CN.length) :
    (accumulateIncident num FN t fn inc r CN).length = CN.length ∧
    row (accumulateIncident num FN t fn inc r CN) r = row CN r + gatedSum num FN t fn inc ∧
    ∀ s, s ≠ r → row (accumulateIncident num FN t fn inc r CN) s = row CN s := by
  induction inc generalizing CN with
  | nil => simp [accumulateIncident, gatedSum]
  | cons k ks ih =>
    by_cases hp : passes num t fn (row FN k) = true
    · have hstep : accumulateIncident num FN t fn (k :: ks) r CN
          = accumulateIncident num FN t fn ks r (CN.set r (row CN r + row FN k)) := by
        simp [accumulateIncident, hp]
      have hlen : r < (CN.set r (row CN r + row FN k)).length := by simpa using hr
      obtain ⟨h1, h2, h3⟩ := ih (CN.set r (row CN r + row FN k)) hlen
      rw [hstep]
      refine ⟨by simpa using h1, ?_, ?_⟩
      · rw [h2, row_set_self _ _ _ hr]
        simp [gatedSum, hp, add_assoc]
      · intro s hs
        rw [h3 s hs, row_set_of_ne _ _ _ _ (Ne.symm hs)]
    · have hstep : accumulateIncident num FN t fn (k :: ks) r CN
          = accumulateIncident num FN t fn ks r CN := by
        simp [accumulateIncident, hp]
      obtain ⟨h1, h2, h3⟩ := ih CN hr
      rw [hstep]
      refine ⟨h1, ?_, h3⟩
      rw [h2]
      simp [gatedSum, hp]

/-- The value the fixed-valence engine is specified to store for corner `(i,j)`. -/
theorem cornerStep_spec (num : Numeric K) (F : IndexMatrix) (FN : List (Vec3 K))
    (VF : List (List Nat)) (t : K) (i j : Nat) (fn : Vec3 K) (CN : List (Vec3 K))
    (hr : i * F.cols + j < CN.length) :
    (cornerStep num F FN VF t i fn CN j).length = CN.length ∧
    row (cornerStep num F FN VF t i fn CN j) (i * F.cols + j)
      = normalize num (row CN (i * F.cols + j)
          + gatedSum num FN t fn (incident VF (F.coeff i j))) ∧
    ∀ s, s ≠ i * F.cols + j → row (cornerStep num F FN VF t i fn CN j) s = row CN s := by
  obtain ⟨h1, h2, h3⟩ :=
    accumulateIncident_spec num FN t fn (i * F.cols + j) (incident VF (F.coeff i j)) CN hr
  refine ⟨by simp [cornerStep, h1], ?_, ?_⟩
  · simp only [cornerStep]
    rw [row_set_self _ _ _ (by rw [h1]; exact hr), h2]
  · intro s hs
    simp only [cornerStep]
    rw [row_set_of_ne _ _ _ _ (Ne.symm hs), h3 s hs]

/-- The corner loop of face `i`, run over the first `k` corners. -/
theorem faceStep_fold_spec (num : Numeric K) (F : IndexMatrix) (FN : List (Vec3 K))
    (VF : List (List Nat)) (t : K) (i : Nat) (fn : Vec3 K) (k : Nat) (CN : List (Vec3 K))
    (hlen : i * F.cols + k ≤ CN.length) :
    ((List.range k).foldl (cornerStep num F FN VF t i fn) CN).length = CN.length ∧
    (∀ j, j < k →
      row ((List.range k).foldl (cornerStep num F FN VF t i fn) CN) (i * F.cols + j)
        = normalize num (row CN (i * F.cols + j)
            + gatedSum num FN t fn (incident VF (F.coeff i j)))) ∧
    ∀ s, (∀ j, j < k → s ≠ i * F.cols + j) →
      row ((List.range k).foldl (cornerStep num F FN VF t i fn) CN) s = row CN s := by
  induction k with
  | zero => simp
  | succ k ih =>
    obtain ⟨h1, h2, h3⟩ := ih (by omega)
    rw [List.range_succ, List.foldl_append]
    simp only [List.foldl_cons, List.foldl_nil]
    obtain ⟨c1, c2, c3⟩ := cornerStep_spec num F FN VF t i k fn
      ((List.range k).foldl (cornerStep num F FN VF t i fn) CN) (by rw [h1]; omega)
    refine ⟨by rw [c1, h1], ?_, ?_⟩
    · intro j hj
      by_cases hjk : j = k
      · subst hjk
        rw [c2, h3 _ (fun j' hj' => by omega)]
      · rw [c3 _ (by omega), h2 j (by omega)]
    · intro s hs
      rw [c3 s (hs k (by omega)), h3 s (fun j hj => hs j (by omega))]

theorem corner_index_lt {m n i j : Nat} (hi : i < m) (hj : j < n) : i * n + j < m * n :=
  calc i * n + j < i * n + n := by omega
    _ = (i + 1) * n := by ring
    _ ≤ m * n := Nat.mul_le_mul_right n hi

/-- The face loop, run over the first `k` faces of a table with rows of zeros. -/
theorem per_corner_normals_fold_spec (num : Numeric K) (F : IndexMatrix)
    (FN : List (Vec3 K)) (VF : List (List Nat)) (t : K) (k : Nat) (hk : k ≤ F.rows) :
    ((List.range k).foldl (faceStep num F FN VF t)
        (List.replicate (F.rows * F.cols) 0)).length = F.rows * F.cols ∧
    (∀ i j, i < k → j < F.cols →
      row ((List.range k).foldl (faceStep num F FN VF t)
        (List.replicate (F.rows * F.cols) 0)) (i * F.cols + j)
        = normalize num (gatedSum num FN t (row FN i) (incident VF (F.coeff i j)))) ∧
    ∀ s, k * F.cols ≤ s →
      row ((List.range k).foldl (faceStep num F FN VF t)
        (List.replicate (F.rows * F.cols) 0)) s = 0 := by
  induction k with
  | zero =>
    refine ⟨by simp, by simp, ?_⟩
    intro s _
    simp only [List.range_zero, List.foldl_nil, row, List.getD_eq_getElem?_getD,
      List.getElem?_replicate]
    split <;> rfl
  | succ k ih =>
    obtain ⟨h1, h2, h3⟩ := ih (by omega)
    rw [List.range_succ, List.foldl_append]
    simp only [List.foldl_cons, List.foldl_nil]
    have hle : k * F.cols + F.cols ≤ F.rows * F.cols := by
      calc k * F.cols + F.cols = (k + 1) * F.cols := by ring
        _ ≤ F.rows * F.cols := Nat.mul_le_mul_right _ hk
    obtain ⟨f1, f2, f3⟩ := faceStep_fold_spec num F FN VF t k (row FN k) F.cols
      ((List.range k).foldl (faceStep num F FN VF t) (List.replicate (F.rows * F.cols) 0))
      (by rw [h1]; exact hle)
    refine ⟨by simp only [faceStep]; rw [f1, h1], ?_, ?_⟩
    · intro i j hi hj
      simp only [faceStep]
      by_cases hik : i = k
      · subst hik
        rw [f2 j hj, h3 _ (by omega), zero_add]
      · have hlt : i < k := by omega
        have hsep : ∀ j', j' < F.cols → i * F.cols + j ≠ k * F.cols + j' := by
          intro j' _
          have := corner_index_lt hlt hj
          omega
        rw [f3 _ hsep, h2 i j hlt hj]
    · intro s hs
      simp only [faceStep]
      have hs' : (k + 1) * F.cols = k * F.cols + F.cols := by ring
      rw [f3 s (fun j hj => by omega), h3 s (by omega)]

/-! ### Polygonal engine: the loop computing `N` -/

theorem length_resized {R : Type} (rows : Nat) (uninit : Nat → Vec3 R) :
    (resized rows uninit).length = rows := by
  simp [resized]

/-- The incident-polygon loop touches row `r` only, adding the weighted gated sum. -/
theorem accumulateWeighted_spec (num : Numeric K) (FN : List (Vec3 K)) (AA : List K) (t : K)
    (fn : Vec3 K) (r : Nat) (inc : List Nat) (N : List (Vec3 K)) (hr : r < N.length) :
    (accumulateWeighted num FN AA t fn inc r N).length = N.length ∧
    row (accumulateWeighted num FN AA t fn inc r N) r
      = row N r + weightedSum num FN AA t fn inc ∧
    ∀ s, s ≠ r → row (accumulateWeighted num FN AA t fn inc r N) s = row N s := by
  induction inc generalizing N with
  | nil => simp [accumulateWeighted, weightedSum]
  | cons k ks ih =>
    by_cases hp : passes num t fn (row FN k) = true
    · have hstep : accumulateWeighted num FN AA t fn (k :: ks) r N
          = accumulateWeighted num FN AA t fn ks r
              (N.set r (row N r + weight AA k • row FN k)) := by
        simp [accumulateWeighted, hp]
      have hlen : r < (N.set r (row N r + weight AA k • row FN k)).length := by
        simpa using hr
      obtain ⟨h1, h2, h3⟩ := ih (N.set r (row N r + weight AA k • row FN k)) hlen
      rw [hstep]
      refine ⟨by simpa using h1, ?_, ?_⟩
      · rw [h2, row_set_self _ _ _ hr]
        simp [weightedSum, hp, add_assoc]
      · intro s hs
        rw [h3 s hs, row_set_of_ne _ _ _ _ (Ne.symm hs)]
    · have hstep : accumulateWeighted num FN AA t fn (k :: ks) r N
          = accumulateWeighted num FN AA t fn ks r N := by
        simp [accumulateWeighted, hp]
      obtain ⟨h1, h2, h3⟩ := ih N hr
      rw [hstep]
      refine ⟨h1, ?_, h3⟩
      rw [h2]
      simp [weightedSum, hp]

/-- One corner of the polygonal engine: row `C[p]+i` is reset, accumulated and
normalized; no other row changes. -/
theorem polyCornerStep_spec (num : Numeric K) (I C : List Nat) (FN : List (Vec3 K))
    (AA : List K) (VF : List (List Nat)) (t : K) (p i : Nat) (fn : Vec3 K)
    (N : List (Vec3 K)) (hr : idx C p + i < N.length) :
    (polyCornerStep num I C FN AA VF t p fn N i).length = N.length ∧
    row (polyCornerStep num I C FN AA VF t p fn N i) (idx C p + i)
      = normalize num (weightedSum num FN AA t fn (incident VF (idx I (idx C p + i)))) ∧
    ∀ s, s ≠ idx C p + i → row (polyCornerStep num I C FN AA VF t p fn N i) s = row N s := by
  have hr0 : idx C p + i < (N.set (idx C p + i) 0).length := by simpa using hr
  obtain ⟨h1, h2, h3⟩ := accumulateWeighted_spec num FN AA t fn (idx C p + i)
    (incident VF (idx I (idx C p + i))) (N.set (idx C p + i) 0) hr0
  refine ⟨by simp [polyCornerStep, h1], ?_, ?_⟩
  · simp only [polyCornerStep]
    rw [row_set_self _ _ _ (by rw [h1]; exact hr0), h2, row_set_self _ _ _ hr, zero_add]
  · intro s hs
    simp only [polyCornerStep]
    rw [row_set_of_ne _ _ _ _ (Ne.symm hs), h3 s hs, row_set_of_ne _ _ _ _ (Ne.symm hs)]

/-- The corner loop of polygon `p`, run over the first `k` local corners. -/
theorem polyFaceStep_fold_spec (num : Numeric K) (I C : List Nat) (FN : List (Vec3 K))
    (AA : List K) (VF : List (List Nat)) (t : K) (p : Nat) (fn : Vec3 K) (k : Nat)
    (N : List (Vec3 K)) (hlen : idx C p + k ≤ N.length) :
    ((List.range k).foldl (polyCornerStep num I C FN AA VF t p fn) N).length = N.length ∧
    (∀ i, i < k →
      row ((List.range k).foldl (polyCornerStep num I C FN AA VF t p fn) N) (idx C p + i)
        = normalize num
            (weightedSum num FN AA t fn (incident VF (idx I (idx C p + i))))) ∧
    ∀ s, (∀ i, i < k → s ≠ idx C p + i) →
      row ((List.range k).foldl (polyCornerStep num I C FN AA VF t p fn) N) s = row N s := by
  induction k with
  | zero => simp
  | succ k ih =>
    obtain ⟨h1, h2, h3⟩ := ih (by omega)
    rw [List.range_succ, List.foldl_append]
    simp only [List.foldl_cons, List.foldl_nil]
    obtain ⟨c1, c2, c3⟩ := polyCornerStep_spec num I C FN AA VF t p k fn
      ((List.range k).foldl (polyCornerStep num I C FN AA VF t p fn) N) (by rw [h1]; omega)
    refine ⟨by rw [c1, h1], ?_, ?_⟩
    · intro i hi
      by_cases hik : i = k
      · subst hik
        rw [c2]
      · rw [c3 _ (by omega), h2 i (by omega)]
    · intro s hs
      rw [c3 s (hs k (by omega)), h3 s (fun i hi => hs i (by omega))]

/-- Strictly increasing offsets are monotone. -/
theorem idx_mono_of_strictlyIncreasing {C : List Nat} (hC : StrictlyIncreasing C)
    {p q : Nat} (hpq : p ≤ q) (hq : q ≤ C.length - 1) : idx C p ≤ idx C q := by
  induction q with
  | zero =>
    have : p = 0 := by omega
    subst this
    exact le_rfl
  | succ q ih =>
    by_cases h : p = q + 1
    · subst h
      exact le_rfl
    · have h1 := ih (by omega) (by omega)
      have h2 := hC q (by omega)
      omega

/-- The polygon loop computing `N`, run over the first `k` polygons. -/
theorem polygonN_fold_spec (num : Numeric K) (I C : List Nat) (FN : List (Vec3 K))
    (AA : List K) (VF : List (List Nat)) (t : K) (N0 : List (Vec3 K))
    (hC : StrictlyIncreasing C) (hlast : idx C (C.length - 1) ≤ N0.length)
    (k : Nat) (hk : k ≤ C.length - 1) :
    ((List.range k).foldl (polyFaceStep num I C FN AA VF t) N0).length = N0.length ∧
    (∀ p i, p < k → i < idx C (p + 1) - idx C p →
      row ((List.range k).foldl (polyFaceStep num I C FN AA VF t) N0) (idx C p + i)
        = normalize num
            (weightedSum num FN AA t (row FN p) (incident VF (idx I (idx C p + i))))) ∧
    ∀ s, (∀ p i, p < k → i < idx C (p + 1) - idx C p → s ≠ idx C p + i) →
      row ((List.range k).foldl (polyFaceStep num I C FN AA VF t) N0) s = row N0 s := by
  induction k with
  | zero => simp
  | succ k ih =>
    obtain ⟨h1, h2, h3⟩ := ih (by omega)
    rw [List.range_succ, List.foldl_append]
    simp only [List.foldl_cons, List.foldl_nil]
    have hk1 : idx C (k + 1) ≤ idx C (C.length - 1) :=
      idx_mono_of_strictlyIncreasing hC (by omega) le_rfl
    have hkk : idx C k < idx C (k + 1) := hC k (by omega)
    obtain ⟨f1, f2, f3⟩ := polyFaceStep_fold_spec num I C FN AA VF t k (row FN k)
      (idx C (k + 1) - idx C k)
      ((List.range k).foldl (polyFaceStep num I C FN AA VF t) N0) (by rw [h1]; omega)
    refine ⟨by simp only [polyFaceStep]; rw [f1, h1], ?_, ?_⟩
    · intro p i hp hi
      simp only [polyFaceStep]
      by_cases hpk : p = k
      · subst hpk
        rw [f2 i hi]
      · have hlt : p < k := by omega
        have hmono : idx C (p + 1) ≤ idx C k :=
          idx_mono_of_strictlyIncreasing hC (by omega) (by omega)
        rw [f3 _ (fun i' _ => by omega), h2 p i hlt hi]
    · intro s hs
      simp only [polyFaceStep]
      rw [f3 s (fun i hi => hs k i (by omega) hi),
        h3 s (fun p i hp hi => hs p i (by omega) hi)]

/-! ### Polygonal engine: the loop reconstructing `NN` -/

theorem triangleIndex_succ (C : List Nat) (p : Nat) :
    triangleIndex C (p + 1) 0 = triangleIndex C p 0 + (idx C (p + 1) - idx C p) := by
  simp [triangleIndex, List.range_succ]

theorem triangleIndex_add (C : List Nat) (p i : Nat) :
    triangleIndex C p i = triangleIndex C p 0 + i := by
  simp [triangleIndex]

theorem nnCornerStep_fold_none (nV : Nat) (I C : List Nat) (FN : List (Vec3 K))
    (FF : List (Nat × Nat × Nat)) (N : List (Vec3 K)) (p np : Nat) (l : List Nat) :
    l.foldl (nnCornerStep nV I C FN FF N p np) none = none := by
  induction l with
  | nil => rfl
  | cons a l ih => simpa [nnCornerStep] using ih

theorem nnFaceStep_fold_none (nV : Nat) (I C : List Nat) (FN : List (Vec3 K))
    (FF : List (Nat × Nat × Nat)) (N : List (Vec3 K)) (l : List Nat) :
    l.foldl (nnFaceStep nV I C FN FF N) none = none := by
  induction l with
  | nil => rfl
  | cons a l ih =>
    simp only [List.foldl_cons, nnFaceStep, nnCornerStep_fold_none]
    exact ih

/-- One passing step of the reconstruction loop. -/
theorem nnCornerStep_some (nV : Nat) (I C : List Nat) (FN : List (Vec3 K))
    (FF : List (Nat × Nat × Nat)) (N : List (Vec3 K)) (p np i k : Nat)
    (NN : List (Vec3 K))
    (hff : FF[k]? = some (idx I (idx C p + ((i + 0) % np)),
      idx I (idx C p + ((i + 1) % np)), nV + p)) :
    nnCornerStep nV I C FN FF N p np (some (k, NN)) i
      = some (k + 1,
          ((NN.set (k * 3 + 0) (row N (idx C p + ((i + 0) % np)))).set (k * 3 + 1)
            (row N (idx C p + ((i + 1) % np)))).set (k * 3 + 2) (row FN p)) := by
  simp [nnCornerStep, hff]

/-- A step of the reconstruction loop that does not fault has read the asserted
row of `FF`. -/
theorem nnCornerStep_eq_some (nV : Nat) (I C : List Nat) (FN : List (Vec3 K))
    (FF : List (Nat × Nat × Nat)) (N : List (Vec3 K)) (p np i k : Nat)
    (NN : List (Vec3 K)) (x : Nat × List (Vec3 K))
    (h : nnCornerStep nV I C FN FF N p np (some (k, NN)) i = some x) :
    FF[k]? = some (idx I (idx C p + ((i + 0) % np)),
      idx I (idx C p + ((i + 1) % np)), nV + p) := by
  simp only [nnCornerStep] at h
  cases hff : FF[k]? with
  | none => simp [hff] at h
  | some ff =>
    rw [hff] at h
    simp only at h
    split at h
    · rename_i hc
      obtain ⟨a, b, c⟩ := hc
      rw [← a, ← b, ← c]
    · exact absurd h (by simp)

/-- Rows of a matrix after the three consecutive row writes of lines 185-187. -/
theorem row_set3 (A : List (Vec3 K)) (k : Nat) (x y z : Vec3 K)
    (h : k * 3 + 2 < A.length) :
    (((A.set (k * 3 + 0) x).set (k * 3 + 1) y).set (k * 3 + 2) z).length = A.length ∧
    row (((A.set (k * 3 + 0) x).set (k * 3 + 1) y).set (k * 3 + 2) z) (k * 3 + 0) = x ∧
    row (((A.set (k * 3 + 0) x).set (k * 3 + 1) y).set (k * 3 + 2) z) (k * 3 + 1) = y ∧
    row (((A.set (k * 3 + 0) x).set (k * 3 + 1) y).set (k * 3 + 2) z) (k * 3 + 2) = z ∧
    ∀ s, (s < k * 3 ∨ (k + 1) * 3 ≤ s) →
      row (((A.set (k * 3 + 0) x).set (k * 3 + 1) y).set (k * 3 + 2) z) s = row A s := by
  refine ⟨by simp, ?_, ?_, ?_, ?_⟩
  · rw [row_set_of_ne _ _ _ _ (by omega), row_set_of_ne _ _ _ _ (by omega),
      row_set_self _ _ _ (by omega)]
  · rw [row_set_of_ne _ _ _ _ (by omega), row_set_self _ _ _ (by simp; omega)]
  · rw [row_set_self _ _ _ (by simp; omega)]
  · intro s hs
    rw [row_set_of_ne _ _ _ _ (by omega), row_set_of_ne _ _ _ _ (by omega),
      row_set_of_ne _ _ _ _ (by omega)]

/-- The reconstruction loop of one polygon, run over the first `j` local corners
from counter `k0`, when `FF` holds the asserted rows. -/
theorem nnCorner_fold_ok (nV : Nat) (I C : List Nat) (FN : List (Vec3 K))
    (FF : List (Nat × Nat × Nat)) (N : List (Vec3 K)) (p np k0 : Nat)
    (NN0 : List (Vec3 K)) (hlen : NN0.length = FF.length * 3) (j : Nat)
    (hm : ∀ i, i < j → FF[k0 + i]? = some (idx I (idx C p + ((i + 0) % np)),
      idx I (idx C p + ((i + 1) % np)), nV + p)) :
    ∃ NN1, (List.range j).foldl (nnCornerStep nV I C FN FF N p np) (some (k0, NN0))
        = some (k0 + j, NN1) ∧
      NN1.length = NN0.length ∧
      (∀ i, i < j →
        row NN1 ((k0 + i) * 3 + 0) = row N (idx C p + ((i + 0) % np)) ∧
        row NN1 ((k0 + i) * 3 + 1) = row N (idx C p + ((i + 1) % np)) ∧
        row NN1 ((k0 + i) * 3 + 2) = row FN p) ∧
      ∀ s, (s < k0 * 3 ∨ (k0 + j) * 3 ≤ s) → row NN1 s = row NN0 s := by
  induction j with
  | zero => exact ⟨NN0, by simp, rfl, by simp, fun _ _ => rfl⟩
  | succ j ih =>
    obtain ⟨NN1, e1, l1, r1, u1⟩ := ih (fun i hi => hm i (by omega))
    have hff := hm j (by omega)
    have hk : k0 + j < FF.length := by
      by_contra hcon
      rw [List.getElem?_eq_none (by omega)] at hff
      exact absurd hff (by simp)
    have hin : (k0 + j) * 3 + 2 < NN1.length := by rw [l1, hlen]; omega
    obtain ⟨s0, s1, s2, s3, s4⟩ := row_set3 NN1 (k0 + j)
      (row N (idx C p + ((j + 0) % np))) (row N (idx C p + ((j + 1) % np))) (row FN p) hin
    refine ⟨((NN1.set ((k0 + j) * 3 + 0) (row N (idx C p + ((j + 0) % np)))).set
      ((k0 + j) * 3 + 1) (row N (idx C p + ((j + 1) % np)))).set ((k0 + j) * 3 + 2)
      (row FN p), ?_, ?_, ?_, ?_⟩
    · rw [List.range_succ, List.foldl_append, e1]
      simp only [List.foldl_cons, List.foldl_nil]
      rw [nnCornerStep_some nV I C FN FF N p np j (k0 + j) NN1 hff]
      rfl
    · rw [s0, l1]
    · intro i hi
      by_cases hij : i = j
      · subst hij
        exact ⟨s1, s2, s3⟩
      · obtain ⟨a, b, c⟩ := r1 i (by omega)
        rw [s4 _ (by omega), s4 _ (by omega), s4 _ (by omega)]
        exact ⟨a, b, c⟩
    · intro s hs
      rw [s4 s (by omega), u1 s (by omega)]

/-- A run of the reconstruction loop of one polygon that does not fault has read
the asserted rows of `FF`. -/
theorem nnCorner_fold_match (nV : Nat) (I C : List Nat) (FN : List (Vec3 K))
    (FF : List (Nat × Nat × Nat)) (N : List (Vec3 K)) (p np k0 : Nat)
    (NN0 : List (Vec3 K)) (hlen : NN0.length = FF.length * 3) (j : Nat)
    (x : Nat × List (Vec3 K))
    (h : (List.range j).foldl (nnCornerStep nV I C FN FF N p np) (some (k0, NN0)) = some x) :
    ∀ i, i < j → FF[k0 + i]? = some (idx I (idx C p + ((i + 0) % np)),
      idx I (idx C p + ((i + 1) % np)), nV + p) := by
  induction j generalizing x with
  | zero => intro i hi; omega
  | succ j ih =>
    rw [List.range_succ, List.foldl_append] at h
    simp only [List.foldl_cons, List.foldl_nil] at h
    cases hprev : (List.range j).foldl (nnCornerStep nV I C FN FF N p np) (some (k0, NN0)) with
    | none =>
      rw [hprev] at h
      simp [nnCornerStep] at h
    | some y =>
      have hm := ih y hprev
      obtain ⟨NN1, e1, _, _, _⟩ := nnCorner_fold_ok nV I C FN FF N p np k0 NN0 hlen j hm
      rw [e1] at h
      have hj := nnCornerStep_eq_some nV I C FN FF N p np j (k0 + j) NN1 x h
      intro i hi
      by_cases hij : i = j
      · subst hij; exact hj
      · exact hm i (by omega)

/-- The reconstruction loop, run over the first `q` polygons, when `FF` holds
the asserted rows. -/
theorem nnFace_fold_ok (nV : Nat) (I C : List Nat) (FN : List (Vec3 K))
    (FF : List (Nat × Nat × Nat)) (N : List (Vec3 K)) (NN0 : List (Vec3 K))
    (hlen : NN0.length = FF.length * 3) (q : Nat)
    (hm : ∀ p, p < q → ∀ i, i < idx C (p + 1) - idx C p →
      FF[triangleIndex C p i]? = some (fanRow nV I C p i)) :
    ∃ NN1, (List.range q).foldl (nnFaceStep nV I C FN FF N) (some (0, NN0))
        = some (triangleIndex C q 0, NN1) ∧
      NN1.length = NN0.length ∧
      (∀ p i, p < q → i < idx C (p + 1) - idx C p →
        row NN1 (triangleIndex C p i * 3 + 0)
          = row N (idx C p + ((i + 0) % (idx C (p + 1) - idx C p))) ∧
        row NN1 (triangleIndex C p i * 3 + 1)
          = row N (idx C p + ((i + 1) % (idx C (p + 1) - idx C p))) ∧
        row NN1 (triangleIndex C p i * 3 + 2) = row FN p) ∧
      ∀ s, triangleIndex C q 0 * 3 ≤ s → row NN1 s = row NN0 s := by
  induction q with
  | zero => exact ⟨NN0, by simp [triangleIndex], rfl, by simp, fun _ _ => rfl⟩
  | succ q ih =>
    obtain ⟨NN1, e1, l1, r1, u1⟩ := ih (fun p hp => hm p (by omega))
    have hq : ∀ i, i < idx C (q + 1) - idx C q →
        FF[triangleIndex C q 0 + i]? = some (idx I (idx C q + ((i + 0) % (idx C (q + 1) - idx C q))),
          idx I (idx C q + ((i + 1) % (idx C (q + 1) - idx C q))), nV + q) := by
      intro i hi
      have := hm q (by omega) i hi
      rw [triangleIndex_add] at this
      exact this
    obtain ⟨NN2, e2, l2, r2, u2⟩ := nnCorner_fold_ok nV I C FN FF N q
      (idx C (q + 1) - idx C q) (triangleIndex C q 0) NN1 (by rw [l1, hlen])
      (idx C (q + 1) - idx C q) hq
    refine ⟨NN2, ?_, by rw [l2, l1], ?_, ?_⟩
    · rw [List.range_succ, List.foldl_append, e1]
      simp only [List.foldl_cons, List.foldl_nil, nnFaceStep]
      rw [e2, triangleIndex_succ]
    · intro p i hp hi
      by_cases hpq : p = q
      · subst hpq
        rw [triangleIndex_add]
        exact r2 i hi
      · have hlt : p < q := by omega
        have hbound : triangleIndex C p i < triangleIndex C q 0 := by
          have h1 : triangleIndex C (p + 1) 0 ≤ triangleIndex C q 0 := by
            have hmono : ∀ d, triangleIndex C (p + 1) 0 ≤ triangleIndex C (p + 1 + d) 0 := by
              intro d
              induction d with
              | zero => exact le_rfl
              | succ d ihd =>
                have := triangleIndex_succ C (p + 1 + d)
                rw [← Nat.add_assoc, this]
                omega
            have := hmono (q - (p + 1))
            rwa [show p + 1 + (q - (p + 1)) = q by omega] at this
          rw [triangleIndex_succ] at h1
          rw [triangleIndex_add]
          omega
        obtain ⟨a, b, c⟩ := r1 p i hlt hi
        rw [u2 _ (Or.inl (by omega)), u2 _ (Or.inl (by omega)), u2 _ (Or.inl (by omega))]
        exact ⟨a, b, c⟩
    · intro s hs
      rw [triangleIndex_succ] at hs
      rw [u2 s (Or.inr hs), u1 s (by omega)]

/-- A run of the reconstruction loop that does not fault has read the asserted
rows of `FF`. -/
theorem nnFace_fold_match (nV : Nat) (I C : List Nat) (FN : List (Vec3 K))
    (FF : List (Nat × Nat × Nat)) (N : List (Vec3 K)) (NN0 : List (Vec3 K))
    (hlen : NN0.length = FF.length * 3) (q : Nat) (x : Nat × List (Vec3 K))
    (h : (List.range q).foldl (nnFaceStep nV I C FN FF N) (some (0, NN0)) = some x) :
    ∀ p, p < q → ∀ i, i < idx C (p + 1) - idx C p →
      FF[triangleIndex C p i]? = some (fanRow nV I C p i) := by
  induction q generalizing x with
  | zero => intro p hp; omega
  | succ q ih =>
    rw [List.range_succ, List.foldl_append] at h
    simp only [List.foldl_cons, List.foldl_nil] at h
    cases hprev : (List.range q).foldl (nnFaceStep nV I C FN FF N) (some (0, NN0)) with
    | none =>
      rw [hprev] at h
      simp [nnFaceStep, nnCornerStep_fold_none] at h
    | some y =>
      have hm := ih y hprev
      obtain ⟨NN1, e1, l1, _, _⟩ := nnFace_fold_ok nV I C FN FF N NN0 hlen q hm
      rw [e1] at h
      simp only [nnFaceStep] at h
      have hq := nnCorner_fold_match nV I C FN FF N q (idx C (q + 1) - idx C q)
        (triangleIndex C q 0) NN1 (by rw [l1, hlen]) (idx C (q + 1) - idx C q) x h
      intro p hp i hi
      by_cases hpq : p = q
      · subst hpq
        rw [triangleIndex_add]
        exact hq i hi
      · exact hm p (by omega) i hi

/-- Under the triangulator's contract the reconstruction completes, and its
result holds the rows of `N` and `FN` in fan order. -/
theorem polygonNN_of_contract (nV : Nat) (I C : List Nat) (FN : List (Vec3 K))
    (FF : List (Nat × Nat × Nat)) (N : List (Vec3 K)) (uninit : Nat → Vec3 K)
    (hc : FanContract nV I C FF) :
    ∃ NN, polygonNN nV I C FN FF N uninit = some NN ∧
      NN.length = FF.length * 3 ∧
      ∀ p i, p < C.length - 1 → i < idx C (p + 1) - idx C p →
        row NN (triangleIndex C p i * 3 + 0)
          = row N (idx C p + ((i + 0) % (idx C (p + 1) - idx C p))) ∧
        row NN (triangleIndex C p i * 3 + 1)
          = row N (idx C p + ((i + 1) % (idx C (p + 1) - idx C p))) ∧
        row NN (triangleIndex C p i * 3 + 2) = row FN p := by
  obtain ⟨NN1, e1, l1, r1, _⟩ := nnFace_fold_ok nV I C FN FF N
    (resized (FF.length * 3) uninit) (length_resized _ _) (C.length - 1) hc.2
  refine ⟨NN1, ?_, by rw [l1, length_resized], r1⟩
  simp only [polygonNN]
  rw [e1]
  simp [hc.1]

/-- A reconstruction that completes was given an `FF` meeting the contract. -/
theorem contract_of_polygonNN (nV : Nat) (I C : List Nat) (FN : List (Vec3 K))
    (FF : List (Nat × Nat × Nat)) (N : List (Vec3 K)) (uninit : Nat → Vec3 K)
    (NN : List (Vec3 K)) (h : polygonNN nV I C FN FF N uninit = some NN) :
    FanContract nV I C FF := by
  simp only [polygonNN] at h
  cases hfold : (List.range (C.length - 1)).foldl (nnFaceStep nV I C FN FF N)
      (some (0, resized (FF.length * 3) uninit)) with
  | none =>
    rw [hfold] at h
    exact absurd h (by simp)
  | some x =>
    have hm := nnFace_fold_match nV I C FN FF N (resized (FF.length * 3) uninit)
      (length_resized _ _) (C.length - 1) x hfold
    obtain ⟨NN1, e1, _, _, _⟩ := nnFace_fold_ok nV I C FN FF N
      (resized (FF.length * 3) uninit) (length_resized _ _) (C.length - 1) hm
    rw [e1] at h
    simp only at h
    split at h
    · rename_i hk
      exact ⟨hk.symm, hm⟩
    · exact absurd h (by simp)

end Lemmas

section EngineRows

variable {K : Type} [LinearOrderedField K]

theorem per_corner_normals_length (num : Numeric K) (F : IndexMatrix) (FN : List (Vec3 K))
    (VF : List (List Nat)) (t : K) :
    (per_corner_normals num F FN VF t).length = F.rows * F.cols :=
  (per_corner_normals_fold_spec num F FN VF t F.rows le_rfl).1

/-- Row `i*n+j` of the fixed-valence output is the normalized gated sum. -/
theorem per_corner_normals_row (num : Numeric K) (F : IndexMatrix) (FN : List (Vec3 K))
    (VF : List (List Nat)) (t : K) (i j : Nat) (hi : i < F.rows) (hj : j < F.cols) :
    row (per_corner_normals num F FN VF t) (i * F.cols + j)
      = normalize num (gatedSum num FN t (row FN i) (incident VF (F.coeff i j))) :=
  (per_corner_normals_fold_spec num F FN VF t F.rows le_rfl).2.1 i j hi hj

theorem polygonN_length (num : Numeric K) (nV : Nat) (I C : List Nat) (t : K)
    (FN : List (Vec3 K)) (AA : List K) (uninit : Nat → Vec3 K)
    (hC : StrictlyIncreasing C) (hlast : idx C (C.length - 1) ≤ I.length) :
    (polygonN num nV I C t FN AA uninit).length = I.length := by
  have h := (polygonN_fold_spec num I C FN AA (vertexPolygonAdjacency nV I C) t
    (resized I.length uninit) hC (by rw [length_resized]; exact hlast) (C.length - 1) le_rfl).1
  simp only [polygonN]
  rw [h, length_resized]

/-- Row `C[p]+i` of the polygonal output `N` is the normalized weighted gated sum. -/
theorem polygonN_row (num : Numeric K) (nV : Nat) (I C : List Nat) (t : K)
    (FN : List (Vec3 K)) (AA : List K) (uninit : Nat → Vec3 K)
    (hC : StrictlyIncreasing C) (hlast : idx C (C.length - 1) ≤ I.length)
    (p i : Nat) (hp : p < C.length - 1) (hi : i < idx C (p + 1) - idx C p) :
    row (polygonN num nV I C t FN AA uninit) (idx C p + i)
      = normalize num (weightedSum num FN AA t (row FN p)
          (incident (vertexPolygonAdjacency nV I C) (idx I (idx C p + i)))) :=
  (polygonN_fold_spec num I C FN AA (vertexPolygonAdjacency nV I C) t
    (resized I.length uninit) hC (by rw [length_resized]; exact hlast)
    (C.length - 1) le_rfl).2.1 p i hp hi

/-- When every listed face passes the test, the gated sum is the plain sum. -/
theorem gatedSum_of_all_pass (num : Numeric K) (FN : List (Vec3 K)) (t : K) (fn : Vec3 K)
    (inc : List Nat) (h : ∀ k ∈ inc, passes num t fn (row FN k) = true) :
    gatedSum num FN t fn inc = (inc.map (row FN)).sum := by
  simp only [gatedSum]
  rw [List.filter_eq_self.mpr h]

/-- When no listed face passes the test, the gated sum is zero. -/
theorem gatedSum_of_none_pass (num : Numeric K) (FN : List (Vec3 K)) (t : K) (fn : Vec3 K)
    (inc : List Nat) (h : ∀ k ∈ inc, passes num t fn (row FN k) = false) :
    gatedSum num FN t fn inc = 0 := by
  simp only [gatedSum]
  rw [List.filter_eq_nil_iff.mpr (fun k hk => by simp [h k hk])]
  simp

/-- The gated sum depends on the incident list only up to permutation. -/
theorem gatedSum_perm (num : Numeric K) (FN : List (Vec3 K)) (t : K) (fn : Vec3 K)
    {l1 l2 : List Nat} (h : l1.Perm l2) :
    gatedSum num FN t fn l1 = gatedSum num FN t fn l2 := by
  simp only [gatedSum]
  exact ((h.filter _).map _).sum_eq

/-- The weighted gated sum depends on the incident list only up to permutation. -/
theorem weightedSum_perm (num : Numeric K) (FN : List (Vec3 K)) (AA : List K) (t : K)
    (fn : Vec3 K) {l1 l2 : List Nat} (h : l1.Perm l2) :
    weightedSum num FN AA t fn l1 = weightedSum num FN AA t fn l2 := by
  simp only [weightedSum]
  exact ((h.filter _).map _).sum_eq

theorem incident_of_length_le (VF : List (List Nat)) (v : Nat) (h : VF.length ≤ v) :
    incident VF v = [] := by
  simp [incident, List.getD_eq_getElem?_getD, List.getElem?_eq_none h]

/-- Every face id listed by an adjacency of `F` is a row of `F`. -/
theorem IsAdjacency.lt_rows {F : IndexMatrix} {VF : List (List Nat)} (h : IsAdjacency F VF)
    {v k : Nat} (hk : k ∈ incident VF v) : k < F.rows := by
  by_cases hv : v < VF.length
  · exact (h.2 v hv k hk).1
  · rw [incident_of_length_le VF v (by omega)] at hk
    exact absurd hk (List.not_mem_nil k)

/-- The plain sum of a list of copies of one vector. -/
theorem sum_map_const (FN : List (Vec3 K)) (u : Vec3 K) (inc : List Nat)
    (h : ∀ k ∈ inc, row FN k = u) : (inc.map (row FN)).sum = (inc.length : K) • u := by
  induction inc with
  | nil => simp
  | cons k ks ih =>
    rw [List.map_cons, List.sum_cons, ih (fun k' hk' => h k' (List.mem_cons_of_mem _ hk')),
      h k (List.mem_cons_self _ _), List.length_cons, Nat.cast_succ, add_smul, one_smul,
      add_comm]

/-- Every row index below `C[q]` and not below `C[0]` is a corner `C[p]+i` of a
polygon `p < q`. -/
theorem exists_corner_of_lt (C : List Nat) (r q : Nat) (h0 : idx C 0 ≤ r)
    (hr : r < idx C q) :
    ∃ p i, p < q ∧ i < idx C (p + 1) - idx C p ∧ r = idx C p + i := by
  induction q with
  | zero => omega
  | succ q ih =>
    by_cases h : r < idx C q
    · obtain ⟨p, i, hp, hi, e⟩ := ih h
      exact ⟨p, i, by omega, hi, e⟩
    · exact ⟨q, r - idx C q, by omega, by omega, by omega⟩

/-! ### The adjacency loop of the polygonal engine -/

theorem vertexPolygonAdjacency_eq_fold (nV : Nat) (I C : List Nat) :
    vertexPolygonAdjacency nV I C
      = (List.range (C.length - 1)).foldl (pushPolygon I C) (List.replicate nV []) := rfl

theorem incident_set (VF : List (List Nat)) (w v : Nat) (l : List Nat) (hv : v < VF.length) :
    incident (VF.set w l) v = if w = v then l else incident VF v := by
  simp only [incident, List.getD_eq_getElem?_getD, List.getElem?_set]
  by_cases h : w = v
  · subst h
    simp [hv]
  · simp [h]

/-- The inner adjacency loop of polygon `p`, run over its first `k` corners,
appends `p` to `VF[v]` once per corner equal to `v`. -/
theorem pushCorner_fold_spec (I C : List Nat) (p k : Nat) (VF : List (List Nat)) :
    ((List.range k).foldl (pushCorner I C p) VF).length = VF.length ∧
    ∀ v, v < VF.length →
      incident ((List.range k).foldl (pushCorner I C p) VF) v
        = incident VF v ++ List.replicate
            ((List.range k).countP (fun i => decide (idx I (idx C p + i) = v))) p := by
  induction k with
  | zero => simp
  | succ k ih =>
    obtain ⟨h1, h2⟩ := ih
    rw [List.range_succ, List.foldl_append]
    simp only [List.foldl_cons, List.foldl_nil]
    refine ⟨by simp [pushCorner, h1], ?_⟩
    intro v hv
    simp only [pushCorner]
    rw [incident_set _ _ _ _ (by rw [h1]; exact hv), List.countP_append,
      List.countP_singleton]
    by_cases h : idx I (idx C p + k) = v
    · subst h
      rw [if_pos rfl, h2 _ hv]
      simp [List.replicate_succ', List.append_assoc]
    · rw [if_neg h, h2 v hv]
      simp [h]

/-- The adjacency loop, run over the first `q` polygons. -/
theorem pushPolygon_fold_spec (nV : Nat) (I C : List Nat) (q : Nat) :
    ((List.range q).foldl (pushPolygon I C) (List.replicate nV [])).length = nV ∧
    ∀ v, v < nV →
      incident ((List.range q).foldl (pushPolygon I C) (List.replicate nV [])) v
        = listedPolygons I C v q := by
  induction q with
  | zero =>
    refine ⟨by simp, ?_⟩
    intro v hv
    simp [incident, listedPolygons, List.getD_eq_getElem?_getD, List.getElem?_replicate, hv]
  | succ q ih =>
    obtain ⟨h1, h2⟩ := ih
    rw [List.range_succ, List.foldl_append]
    simp only [List.foldl_cons, List.foldl_nil]
    obtain ⟨c1, c2⟩ := pushCorner_fold_spec I C q (idx C (q + 1) - idx C q)
      ((List.range q).foldl (pushPolygon I C) (List.replicate nV []))
    refine ⟨by simp only [pushPolygon]; rw [c1, h1], ?_⟩
    intro v hv
    simp only [pushPolygon]
    rw [c2 v (by rw [h1]; exact hv), h2 v hv]
    rfl

/-- The list `VF[v]` built by the polygonal engine, in closed form. -/
theorem incident_vertexPolygonAdjacency (nV : Nat) (I C : List Nat) (v : Nat) (hv : v < nV) :
    incident (vertexPolygonAdjacency nV I C) v = listedPolygons I C v (C.length - 1) := by
  rw [vertexPolygonAdjacency_eq_fold]
  exact (pushPolygon_fold_spec nV I C (C.length - 1)).2 v hv

theorem length_vertexPolygonAdjacency (nV : Nat) (I C : List Nat) :
    (vertexPolygonAdjacency nV I C).length = nV := by
  rw [vertexPolygonAdjacency_eq_fold]
  exact (pushPolygon_fold_spec nV I C (C.length - 1)).1

theorem mem_listedPolygons (I C : List Nat) (v q x : Nat) :
    x ∈ listedPolygons I C v q ↔ x < q ∧ 0 < cornerCount I C x v := by
  induction q with
  | zero => simp [listedPolygons]
  | succ q ih =>
    simp only [listedPolygons, List.mem_append, ih, List.mem_replicate]
    constructor
    · rintro (⟨h1, h2⟩ | ⟨h1, h2⟩)
      · exact ⟨by omega, h2⟩
      · subst h2
        exact ⟨by omega, by omega⟩
    · rintro ⟨h1, h2⟩
      by_cases h : x = q
      · subst h
        exact Or.inr ⟨by omega, rfl⟩
      · exact Or.inl ⟨by omega, h2⟩

theorem count_listedPolygons (I C : List Nat) (v q x : Nat) :
    (listedPolygons I C v q).count x = if x < q then cornerCount I C x v else 0 := by
  induction q with
  | zero => simp [listedPolygons]
  | succ q ih =>
    simp only [listedPolygons, List.count_append, ih, List.count_replicate]
    by_cases h : x = q
    · subst h
      simp
    · have h' : ¬ (q == x) = true := by simpa using fun e => h e.symm
      rw [if_neg h']
      by_cases hlt : x < q
      · rw [if_pos hlt, if_pos (by omega)]; rfl
      · rw [if_neg hlt, if_neg (by omega)]

theorem pairwise_le_listedPolygons (I C : List Nat) (v q : Nat) :
    (listedPolygons I C v q).Pairwise (· ≤ ·) := by
  induction q with
  | zero => simp [listedPolygons]
  | succ q ih =>
    simp only [listedPolygons]
    rw [List.pairwise_append]
    refine ⟨ih, ?_, ?_⟩
    · rw [List.pairwise_replicate]
      exact Or.inr le_rfl
    · intro a ha b hb
      have h1 := ((mem_listedPolygons I C v q a).mp ha).1
      have h2 := (List.mem_replicate.mp hb).2
      omega

/-- A polygon has a corner at `v` exactly when its corner count for `v` is positive. -/
theorem cornerCount_pos_iff (I C : List Nat) (p v : Nat) :
    0 < cornerCount I C p v ↔ ∃ i, i < idx C (p + 1) - idx C p ∧ v = idx I (idx C p + i) := by
  simp only [cornerCount, List.countP_pos_iff, List.mem_range, decide_eq_true_eq]
  constructor
  · rintro ⟨i, hi, e⟩
    exact ⟨i, hi, e.symm⟩
  · rintro ⟨i, hi, e⟩
    exact ⟨i, hi, e.symm⟩

/-! ### The triangle counter and the fan triangulation -/

theorem triangleIndex_mono (C : List Nat) {p q : Nat} (h : p ≤ q) :
    triangleIndex C p 0 ≤ triangleIndex C q 0 := by
  induction q with
  | zero =>
    have : p = 0 := by omega
    subst this
    exact le_rfl
  | succ q ih =>
    by_cases hpq : p = q + 1
    · subst hpq
      exact le_rfl
    · have h1 := ih (by omega)
      rw [triangleIndex_succ]
      omega

/-- For offsets starting at 0 and strictly increasing, the triangle counter on
entry to polygon `p` is `C[p]`. -/
theorem triangleIndex_eq_idx (C : List Nat) (h0 : idx C 0 = 0) (hC : StrictlyIncreasing C)
    (p : Nat) (hp : p ≤ C.length - 1) : triangleIndex C p 0 = idx C p := by
  induction p with
  | zero => simp [triangleIndex, h0]
  | succ p ih =>
    have h1 := ih (by omega)
    have h2 := hC p (by omega)
    rw [triangleIndex_succ, h1]
    omega

theorem length_fanTriangles (nV : Nat) (I C : List Nat) (q : Nat) :
    (fanTriangles nV I C q).length = triangleIndex C q 0 := by
  induction q with
  | zero => simp [fanTriangles, triangleIndex]
  | succ q ih =>
    simp only [fanTriangles, List.length_append, List.length_map, List.length_range, ih]
    rw [triangleIndex_succ]

theorem getElem?_fanTriangles (nV : Nat) (I C : List Nat) (q p i : Nat) (hp : p < q)
    (hi : i < idx C (p + 1) - idx C p) :
    (fanTriangles nV I C q)[triangleIndex C p i]? = some (fanRow nV I C p i) := by
  induction q with
  | zero => omega
  | succ q ih =>
    simp only [fanTriangles]
    by_cases hpq : p = q
    · subst hpq
      rw [List.getElem?_append_right
          (by rw [length_fanTriangles, triangleIndex_add C p i]; omega),
        length_fanTriangles, triangleIndex_add C p i, Nat.add_sub_cancel_left]
      simp [List.getElem?_map, List.getElem?_range, hi]
    · have hlt : p < q := by omega
      have hb : triangleIndex C p i < (fanTriangles nV I C q).length := by
        rw [length_fanTriangles]
        have h1 := triangleIndex_mono C (show p + 1 ≤ q by omega)
        rw [triangleIndex_succ] at h1
        rw [triangleIndex_add C p i]
        omega
      rw [List.getElem?_append_left hb]
      exact ih hlt

/-- The fan triangulation meets the ordering contract the engine asserts. -/
theorem fanContract_fanTriangulation (nV : Nat) (I C : List Nat) :
    FanContract nV I C (fanTriangulation nV I C) :=
  ⟨length_fanTriangles nV I C _,
    fun p hp i hi => getElem?_fanTriangles nV I C _ p i hp hi⟩

/-- Under strictly increasing offsets distinct corners occupy distinct rows. -/
theorem corner_unique (C : List Nat) (hC : StrictlyIncreasing C) {p i q j : Nat}
    (hp : p < C.length - 1) (hq : q < C.length - 1)
    (hi : i < idx C (p + 1) - idx C p) (hj : j < idx C (q + 1) - idx C q)
    (h : idx C p + i = idx C q + j) : p = q ∧ i = j := by
  have key : ∀ a b x y, a < b → b < C.length - 1 → x < idx C (a + 1) - idx C a →
      idx C a + x ≠ idx C b + y := by
    intro a b x y hab hb hx
    have := idx_mono_of_strictlyIncreasing hC (show a + 1 ≤ b by omega) (by omega)
    omega
  rcases Nat.lt_trichotomy p q with hlt | heq | hgt
  · exact absurd h (key p q i j hlt hq hi)
  · subst heq
    exact ⟨rfl, by omega⟩
  · exact absurd h.symm (key q p j i hgt hp hj)

/-- For a valid offset table the contract reads: `FF` has `C[m]` rows and the row
for polygon `p`, local corner `i` is row `C[p]+i`. -/
theorem fanContract_iff_of_valid (nV : Nat) (I C : List Nat) (FF : List (Nat × Nat × Nat))
    (h0 : idx C 0 = 0) (hC : StrictlyIncreasing C) :
    FanContract nV I C FF ↔
      FF.length = idx C (C.length - 1) ∧
      ∀ p, p < C.length - 1 → ∀ i, i < idx C (p + 1) - idx C p →
        FF[idx C p + i]? = some (idx I (idx C p + (i % (idx C (p + 1) - idx C p))),
          idx I (idx C p + ((i + 1) % (idx C (p + 1) - idx C p))), nV + p) := by
  simp only [FanContract, fanRow, Nat.add_zero]
  rw [triangleIndex_eq_idx C h0 hC _ le_rfl]
  constructor
  · rintro ⟨h1, h2⟩
    refine ⟨h1, fun p hp i hi => ?_⟩
    have := h2 p hp i hi
    rwa [triangleIndex_add C p i, triangleIndex_eq_idx C h0 hC p (by omega)] at this
  · rintro ⟨h1, h2⟩
    refine ⟨h1, fun p hp i hi => ?_⟩
    rw [triangleIndex_add C p i, triangleIndex_eq_idx C h0 hC p (by omega)]
    exact h2 p hp i hi

/-- The whole polygonal overload completes exactly when the reconstruction does. -/
theorem polygonal_some_iff {K : Type} [LinearOrderedField K] (num : Numeric K) (nV : Nat)
    (I C : List Nat) (t : K) (FN : List (Vec3 K)) (FF : List (Nat × Nat × Nat))
    (AA : List K) (uninitN uninitNN : Nat → Vec3 K) :
    (∃ N NN, per_corner_normals_polygonal num nV I C t FN FF AA uninitN uninitNN
        = some (N, NN)) ↔ FanContract nV I C FF := by
  constructor
  · rintro ⟨N, NN, h⟩
    simp only [per_corner_normals_polygonal] at h
    cases hNN : polygonNN nV I C FN FF (polygonN num nV I C t FN AA uninitN) uninitNN with
    | none =>
      rw [hNN] at h
      exact absurd h (by simp)
    | some NN1 => exact contract_of_polygonNN nV I C FN FF _ uninitNN NN1 hNN
  · intro hc
    obtain ⟨NN, e, _, _⟩ := polygonNN_of_contract nV I C FN FF
      (polygonN num nV I C t FN AA uninitN) uninitNN hc
    exact ⟨_, NN, by simp only [per_corner_normals_polygonal]; rw [e]⟩

/-- Two matrices with the same number of rows and the same rows are equal. -/
theorem eq_of_rows_eq (A B : List (Vec3 K)) (hl : A.length = B.length)
    (h : ∀ r, r < A.length → row A r = row B r) : A = B := by
  apply List.ext_getElem hl
  intro n h1 h2
  have := h n h1
  simpa [row, List.getD_eq_getElem?_getD, List.getElem?_eq_getElem h1,
    List.getElem?_eq_getElem h2] using this

/-- The state of the reconstruction loop on entry to the body for polygon `p`,
local corner `i`, when `FF` meets the contract: the counter is the triangle index. -/
theorem nn_state_at (nV : Nat) (I C : List Nat) (FN : List (Vec3 K))
    (FF : List (Nat × Nat × Nat)) (N : List (Vec3 K)) (NN0 : List (Vec3 K))
    (hlen : NN0.length = FF.length * 3) (hc : FanContract nV I C FF)
    (p i : Nat) (hp : p < C.length - 1) (hi : i ≤ idx C (p + 1) - idx C p) :
    ∃ NN1, (List.range i).foldl (nnCornerStep nV I C FN FF N p (idx C (p + 1) - idx C p))
        ((List.range p).foldl (nnFaceStep nV I C FN FF N) (some (0, NN0)))
      = some (triangleIndex C p 0 + i, NN1) := by
  obtain ⟨NN1, e1, l1, _, _⟩ := nnFace_fold_ok nV I C FN FF N NN0 hlen p
    (fun q hq j hj => hc.2 q (by omega) j hj)
  rw [e1]
  obtain ⟨NN2, e2, _, _, _⟩ := nnCorner_fold_ok nV I C FN FF N p
    (idx C (p + 1) - idx C p) (triangleIndex C p 0) NN1 (by rw [l1, hlen]) i
    (fun j hj => by
      have := hc.2 p hp j (by omega)
      rw [triangleIndex_add C p j] at this
      exact this)
  exact ⟨NN2, e2⟩

/-- The state of the reconstruction loop after the last polygon, when `FF` meets
the contract. -/
theorem nn_state_final (nV : Nat) (I C : List Nat) (FN : List (Vec3 K))
    (FF : List (Nat × Nat × Nat)) (N : List (Vec3 K)) (NN0 : List (Vec3 K))
    (hlen : NN0.length = FF.length * 3) (hc : FanContract nV I C FF) :
    ∃ NN1, (List.range (C.length - 1)).foldl (nnFaceStep nV I C FN FF N) (some (0, NN0))
      = some (triangleIndex C (C.length - 1) 0, NN1) := by
  obtain ⟨NN1, e1, _, _, _⟩ := nnFace_fold_ok nV I C FN FF N NN0 hlen (C.length - 1) hc.2
  exact ⟨NN1, e1⟩

/-- For a valid `(I, C)` the polygonal output `N` does not depend on what the
memory held after `resize`. -/
theorem polygonN_uninit_irrelevant (num : Numeric K) (nV : Nat) (I C : List Nat) (t : K)
    (FN : List (Vec3 K)) (AA : List K) (u1 u2 : Nat → Vec3 K)
    (h0 : idx C 0 = 0) (hC : StrictlyIncreasing C) (hlast : idx C (C.length - 1) = I.length) :
    polygonN num nV I C t FN AA u1 = polygonN num nV I C t FN AA u2 := by
  have l1 := polygonN_length num nV I C t FN AA u1 hC (by omega)
  have l2 := polygonN_length num nV I C t FN AA u2 hC (by omega)
  apply eq_of_rows_eq _ _ (by rw [l1, l2])
  intro r hr
  rw [l1] at hr
  obtain ⟨p, i, hp, hi, e⟩ := exists_corner_of_lt C r (C.length - 1) (by omega) (by omega)
  rw [e, polygonN_row num nV I C t FN AA u1 hC (by omega) p i hp hi,
    polygonN_row num nV I C t FN AA u2 hC (by omega) p i hp hi]

/-! ### Order independence of the accumulation loops -/

theorem PermutedAdjacency.perm {VF1 VF2 : List (List Nat)} (h : PermutedAdjacency VF1 VF2)
    (v : Nat) : (incident VF1 v).Perm (incident VF2 v) := by
  by_cases hv : v < VF1.length
  · exact h.2 v hv
  · rw [incident_of_length_le VF1 v (by omega),
      incident_of_length_le VF2 v (by rw [← h.1]; omega)]

/-- The incident-face loop changes nothing when its row lies outside the matrix. -/
theorem accumulateIncident_of_length_le (num : Numeric K) (FN : List (Vec3 K)) (t : K)
    (fn : Vec3 K) (r : Nat) (inc : List Nat) (CN : List (Vec3 K)) (hr : CN.length ≤ r) :
    accumulateIncident num FN t fn inc r CN = CN := by
  induction inc with
  | nil => rfl
  | cons k ks ih =>
    simp only [accumulateIncident, List.foldl_cons]
    split
    · rw [List.set_eq_of_length_le hr]; exact ih
    · exact ih

theorem accumulateWeighted_of_length_le (num : Numeric K) (FN : List (Vec3 K)) (AA : List K)
    (t : K) (fn : Vec3 K) (r : Nat) (inc : List Nat) (N : List (Vec3 K))
    (hr : N.length ≤ r) : accumulateWeighted num FN AA t fn inc r N = N := by
  induction inc with
  | nil => rfl
  | cons k ks ih =>
    simp only [accumulateWeighted, List.foldl_cons]
    split
    · rw [List.set_eq_of_length_le hr]; exact ih
    · exact ih

/-- The incident-face loop gives the same matrix for any order of the incident list. -/
theorem accumulateIncident_perm (num : Numeric K) (FN : List (Vec3 K)) (t : K)
    (fn : Vec3 K) (r : Nat) {l1 l2 : List Nat} (h : l1.Perm l2) (CN : List (Vec3 K)) :
    accumulateIncident num FN t fn l1 r CN = accumulateIncident num FN t fn l2 r CN := by
  by_cases hr : r < CN.length
  · obtain ⟨a1, a2, a3⟩ := accumulateIncident_spec num FN t fn r l1 CN hr
    obtain ⟨b1, b2, b3⟩ := accumulateIncident_spec num FN t fn r l2 CN hr
    apply eq_of_rows_eq _ _ (by rw [a1, b1])
    intro s _
    by_cases hs : s = r
    · subst hs
      rw [a2, b2, gatedSum_perm num FN t fn h]
    · rw [a3 s hs, b3 s hs]
  · rw [accumulateIncident_of_length_le num FN t fn r l1 CN (by omega),
      accumulateIncident_of_length_le num FN t fn r l2 CN (by omega)]

theorem accumulateWeighted_perm (num : Numeric K) (FN : List (Vec3 K)) (AA : List K) (t : K)
    (fn : Vec3 K) (r : Nat) {l1 l2 : List Nat} (h : l1.Perm l2) (N : List (Vec3 K)) :
    accumulateWeighted num FN AA t fn l1 r N = accumulateWeighted num FN AA t fn l2 r N := by
  by_cases hr : r < N.length
  · obtain ⟨a1, a2, a3⟩ := accumulateWeighted_spec num FN AA t fn r l1 N hr
    obtain ⟨b1, b2, b3⟩ := accumulateWeighted_spec num FN AA t fn r l2 N hr
    apply eq_of_rows_eq _ _ (by rw [a1, b1])
    intro s _
    by_cases hs : s = r
    · subst hs
      rw [a2, b2, weightedSum_perm num FN AA t fn h]
    · rw [a3 s hs, b3 s hs]
  · rw [accumulateWeighted_of_length_le num FN AA t fn r l1 N (by omega),
      accumulateWeighted_of_length_le num FN AA t fn r l2 N (by omega)]

/-- The fixed-valence engine gives the same output for permuted adjacency lists. -/
theorem per_corner_normals_perm (num : Numeric K) (F : IndexMatrix) (FN : List (Vec3 K))
    (VF1 VF2 : List (List Nat)) (t : K) (h : PermutedAdjacency VF1 VF2) :
    per_corner_normals num F FN VF1 t = per_corner_normals num F FN VF2 t := by
  simp only [per_corner_normals]
  apply List.foldl_ext
  intro CN i _
  simp only [faceStep]
  apply List.foldl_ext
  intro CN' j _
  simp only [cornerStep]
  rw [accumulateIncident_perm num FN t (row FN i) _ (h.perm (F.coeff i j)) CN']

/-- The polygonal loop gives the same output for permuted adjacency lists. -/
theorem polygonNLoop_perm (num : Numeric K) (I C : List Nat) (t : K) (FN : List (Vec3 K))
    (AA : List K) (VF1 VF2 : List (List Nat)) (uninit : Nat → Vec3 K)
    (h : PermutedAdjacency VF1 VF2) :
    polygonNLoop num I C t FN AA VF1 uninit = polygonNLoop num I C t FN AA VF2 uninit := by
  simp only [polygonNLoop]
  apply List.foldl_ext
  intro N p _
  simp only [polyFaceStep]
  apply List.foldl_ext
  intro N' i _
  simp only [polyCornerStep]
  rw [accumulateWeighted_perm num FN AA t (row FN p) _ (h.perm (idx I (idx C p + i)))
    (N'.set (idx C p + i) 0)]

/-- Row `C[p]+i` of the polygonal loop run with any adjacency `VF`. -/
theorem polygonNLoop_row (num : Numeric K) (I C : List Nat) (t : K)
    (FN : List (Vec3 K)) (AA : List K) (VF : List (List Nat)) (uninit : Nat → Vec3 K)
    (hC : StrictlyIncreasing C) (hlast : idx C (C.length - 1) ≤ I.length)
    (p i : Nat) (hp : p < C.length - 1) (hi : i < idx C (p + 1) - idx C p) :
    row (polygonNLoop num I C t FN AA VF uninit) (idx C p + i)
      = normalize num (weightedSum num FN AA t (row FN p)
          (incident VF (idx I (idx C p + i)))) :=
  (polygonN_fold_spec num I C FN AA VF t (resized I.length uninit) hC
    (by rw [length_resized]; exact hlast) (C.length - 1) le_rfl).2.1 p i hp hi

/-- The gate passes exactly when the dot product exceeds the comparison value. -/
theorem passes_iff (num : Numeric K) (t : K) (fn ifn : Vec3 K) :
    passes num t fn ifn = true ↔ cosThreshold num t < dot fn ifn := by
  simp [passes]

end EngineRows

section VectorLemmas

variable {K : Type} [LinearOrderedField K]

theorem squaredNorm_nonneg (v : Vec3 K) : 0 ≤ squaredNorm v := by
  obtain ⟨x, y, z⟩ := v
  simp only [squaredNorm, dot]
  nlinarith [mul_self_nonneg x, mul_self_nonneg y, mul_self_nonneg z]

theorem squaredNorm_eq_zero_iff (v : Vec3 K) : squaredNorm v = 0 ↔ v = 0 := by
  obtain ⟨x, y, z⟩ := v
  simp only [squaredNorm, dot, Prod.mk_eq_zero]
  constructor
  · intro h
    have hx : x * x = 0 := by nlinarith [mul_self_nonneg x, mul_self_nonneg y, mul_self_nonneg z]
    have hy : y * y = 0 := by nlinarith [mul_self_nonneg x, mul_self_nonneg y, mul_self_nonneg z]
    have hz : z * z = 0 := by nlinarith [mul_self_nonneg x, mul_self_nonneg y, mul_self_nonneg z]
    exact ⟨by simpa using hx, by simpa using hy, by simpa using hz⟩
  · rintro ⟨rfl, rfl, rfl⟩
    simp

theorem squaredNorm_pos_iff (v : Vec3 K) : 0 < squaredNorm v ↔ v ≠ 0 := by
  rw [← not_iff_not, not_lt, not_not, ← squaredNorm_eq_zero_iff]
  exact ⟨fun h => le_antisymm h (squaredNorm_nonneg v), fun h => h.le⟩

theorem dot_comm (a b : Vec3 K) : dot a b = dot b a := by
  simp only [dot]; ring

/-- Cauchy-Schwarz for unit vectors, upper side. -/
theorem dot_le_one (a b : Vec3 K) (ha : UnitVec a) (hb : UnitVec b) : dot a b ≤ 1 := by
  obtain ⟨a1, a2, a3⟩ := a
  obtain ⟨b1, b2, b3⟩ := b
  simp only [UnitVec, squaredNorm, dot] at *
  nlinarith [mul_self_nonneg (a1 - b1), mul_self_nonneg (a2 - b2), mul_self_nonneg (a3 - b3)]

/-- Cauchy-Schwarz for unit vectors, lower side. -/
theorem neg_one_le_dot (a b : Vec3 K) (ha : UnitVec a) (hb : UnitVec b) : -1 ≤ dot a b := by
  obtain ⟨a1, a2, a3⟩ := a
  obtain ⟨b1, b2, b3⟩ := b
  simp only [UnitVec, squaredNorm, dot] at *
  nlinarith [mul_self_nonneg (a1 + b1), mul_self_nonneg (a2 + b2), mul_self_nonneg (a3 + b3)]

/-- Two unit vectors with dot product one are equal. -/
theorem eq_of_dot_eq_one (a b : Vec3 K) (ha : UnitVec a) (hb : UnitVec b)
    (h : dot a b = 1) : a = b := by
  obtain ⟨a1, a2, a3⟩ := a
  obtain ⟨b1, b2, b3⟩ := b
  simp only [UnitVec, squaredNorm, dot] at *
  have h1 : (a1 - b1) * (a1 - b1) = 0 := by
    nlinarith [mul_self_nonneg (a1 - b1), mul_self_nonneg (a2 - b2), mul_self_nonneg (a3 - b3)]
  have h2 : (a2 - b2) * (a2 - b2) = 0 := by
    nlinarith [mul_self_nonneg (a1 - b1), mul_self_nonneg (a2 - b2), mul_self_nonneg (a3 - b3)]
  have h3 : (a3 - b3) * (a3 - b3) = 0 := by
    nlinarith [mul_self_nonneg (a1 - b1), mul_self_nonneg (a2 - b2), mul_self_nonneg (a3 - b3)]
  have e1 : a1 = b1 := by
    have := mul_self_eq_zero.mp h1; linarith
  have e2 : a2 = b2 := by
    have := mul_self_eq_zero.mp h2; linarith
  have e3 : a3 = b3 := by
    have := mul_self_eq_zero.mp h3; linarith
  rw [e1, e2, e3]

theorem normalize_zero (num : Numeric K) : normalize num (0 : Vec3 K) = 0 := by
  simp [normalize, squaredNorm, dot]

theorem normalize_of_ne_zero (num : Numeric K) (v : Vec3 K) (hv : v ≠ 0) :
    normalize num v = (v.1 / num.sqrt (squaredNorm v), v.2.1 / num.sqrt (squaredNorm v),
      v.2.2 / num.sqrt (squaredNorm v)) := by
  simp only [normalize]
  rw [if_pos ((squaredNorm_pos_iff v).mpr hv)]

/-- Two unit vectors with dot product minus one are opposite. -/
theorem eq_neg_of_dot_eq_neg_one (a b : Vec3 K) (ha : UnitVec a) (hb : UnitVec b)
    (h : dot a b = -1) : b = -a := by
  have hna : UnitVec (-a) := by
    obtain ⟨a1, a2, a3⟩ := a
    simp only [UnitVec, squaredNorm, dot, Prod.neg_mk] at *
    linarith
  have hd : dot (-a) b = 1 := by
    obtain ⟨a1, a2, a3⟩ := a
    obtain ⟨b1, b2, b3⟩ := b
    simp only [dot, Prod.neg_mk] at *
    linarith
  exact (eq_of_dot_eq_one (-a) b hna hb hd).symm

theorem dot_zero_left (b : Vec3 K) : dot (0 : Vec3 K) b = 0 := by
  simp [dot]

theorem dot_zero_right (a : Vec3 K) : dot a (0 : Vec3 K) = 0 := by
  simp [dot]

/-- A row read from a matrix of unit rows is a unit vector or, outside the
matrix, the zero vector. -/
theorem row_unit_or_zero (FN : List (Vec3 K)) (h : ∀ v ∈ FN, UnitVec v) (k : Nat) :
    UnitVec (row FN k) ∨ row FN k = 0 := by
  by_cases hk : k < FN.length
  · left
    have : row FN k = FN[k] := by
      simp [row, List.getD_eq_getElem?_getD, List.getElem?_eq_getElem hk]
    rw [this]
    exact h _ (List.getElem_mem hk)
  · right
    exact row_of_length_le FN k (by omega)

/-- Rows of a matrix of unit rows have dot product at most one. -/
theorem dot_row_le_one (FN : List (Vec3 K)) (h : ∀ v ∈ FN, UnitVec v) (i k : Nat) :
    dot (row FN i) (row FN k) ≤ 1 := by
  rcases row_unit_or_zero FN h i with hi | hi
  · rcases row_unit_or_zero FN h k with hk | hk
    · exact dot_le_one _ _ hi hk
    · rw [hk, dot_zero_right]; exact zero_le_one
  · rw [hi, dot_zero_left]; exact zero_le_one

theorem dot_add_right (a b c : Vec3 K) : dot a (b + c) = dot a b + dot a c := by
  obtain ⟨a1, a2, a3⟩ := a
  obtain ⟨b1, b2, b3⟩ := b
  obtain ⟨c1, c2, c3⟩ := c
  simp only [dot, Prod.mk_add_mk]
  ring

theorem dot_sum_right (a : Vec3 K) (l : List (Vec3 K)) :
    dot a l.sum = (l.map (dot a)).sum := by
  induction l with
  | nil => simp [dot_zero_right]
  | cons b l ih => rw [List.sum_cons, dot_add_right, ih, List.map_cons, List.sum_cons]

/-- The dot product of a face normal with its gated sum is the sum of the dot
products that passed the test. -/
theorem dot_gatedSum (num : Numeric K) (FN : List (Vec3 K)) (t : K) (fn : Vec3 K)
    (inc : List Nat) :
    dot fn (gatedSum num FN t fn inc)
      = (((inc.filter (fun k => passes num t fn (row FN k))).map (row FN)).map (dot fn)).sum := by
  simp only [gatedSum]
  exact dot_sum_right fn _

/-- When the comparison value is non-negative and some listed face passes the
test, the gated sum has a positive dot product with the face normal. -/
theorem dot_gatedSum_pos (num : Numeric K) (FN : List (Vec3 K)) (t : K) (fn : Vec3 K)
    (inc : List Nat) (hcos : 0 ≤ cosThreshold num t) (k0 : Nat) (hk0 : k0 ∈ inc)
    (hpass : passes num t fn (row FN k0) = true) :
    0 < dot fn (gatedSum num FN t fn inc) := by
  rw [dot_gatedSum]
  apply List.sum_pos
  · intro x hx
    simp only [List.mem_map, List.mem_filter] at hx
    obtain ⟨v, ⟨k, ⟨_, hk⟩, rfl⟩, rfl⟩ := hx
    have hk' : cosThreshold num t < dot fn (row FN k) := by simpa [passes] using hk
    exact lt_of_le_of_lt hcos hk'
  · intro hnil
    have hmem : dot fn (row FN k0) ∈ ((inc.filter
        (fun k => passes num t fn (row FN k))).map (row FN)).map (dot fn) :=
      List.mem_map.mpr ⟨row FN k0,
        List.mem_map.mpr ⟨k0, List.mem_filter.mpr ⟨hk0, hpass⟩, rfl⟩, rfl⟩
    rw [hnil] at hmem
    exact absurd hmem (List.not_mem_nil _)

end VectorLemmas

section RealLemmas

/-- Over the reals a normalized non-zero vector is a unit vector. -/
theorem unit_normalize (v : Vec3 ℝ) (hv : v ≠ 0) :
    UnitVec (normalize (⟨Real.cos, Real.sqrt, Real.pi⟩ : Numeric ℝ) v) := by
  have hz : 0 < squaredNorm v := (squaredNorm_pos_iff v).mpr hv
  have hs : 0 < Real.sqrt (squaredNorm v) := Real.sqrt_pos.mpr hz
  have hss : Real.sqrt (squaredNorm v) * Real.sqrt (squaredNorm v) = squaredNorm v :=
    Real.mul_self_sqrt hz.le
  rw [normalize_of_ne_zero _ v hv]
  obtain ⟨x, y, z⟩ := v
  simp only [UnitVec, squaredNorm, dot] at *
  field_simp

/-- Over the reals `normalize` fixes unit vectors. -/
theorem normalize_unit (u : Vec3 ℝ) (hu : UnitVec u) :
    normalize (⟨Real.cos, Real.sqrt, Real.pi⟩ : Numeric ℝ) u = u := by
  have h1 : squaredNorm u = 1 := hu
  simp [normalize, h1]

/-- Over the reals `normalize` ignores a positive scale factor. -/
theorem normalize_smul (c : ℝ) (hc : 0 < c) (v : Vec3 ℝ) :
    normalize (⟨Real.cos, Real.sqrt, Real.pi⟩ : Numeric ℝ) (c • v)
      = normalize (⟨Real.cos, Real.sqrt, Real.pi⟩ : Numeric ℝ) v := by
  by_cases hv : v = 0
  · subst hv; simp
  · have hz : 0 < squaredNorm v := (squaredNorm_pos_iff v).mpr hv
    have hcz : squaredNorm (c • v) = c * c * squaredNorm v := by
      obtain ⟨x, y, z⟩ := v
      simp only [squaredNorm, dot, Prod.smul_mk, smul_eq_mul]; ring
    have hsq : Real.sqrt (squaredNorm (c • v)) = c * Real.sqrt (squaredNorm v) := by
      rw [hcz, Real.sqrt_mul (mul_self_nonneg c), Real.sqrt_mul_self hc.le]
    have hs : 0 < Real.sqrt (squaredNorm v) := Real.sqrt_pos.mpr hz
    have hcv : c • v ≠ 0 := by
      intro h
      have : squaredNorm (c • v) = 0 := by rw [h]; simp [squaredNorm, dot]
      rw [hcz] at this
      have : 0 < c * c * squaredNorm v := by positivity
      linarith
    rw [normalize_of_ne_zero _ _ hcv, normalize_of_ne_zero _ _ hv]
    simp only [hsq]
    obtain ⟨x, y, z⟩ := v
    simp only [Prod.smul_mk, smul_eq_mul, Prod.mk.injEq]
    refine ⟨?_, ?_, ?_⟩ <;> (field_simp; ring)

/-- The model of `normalize` uses the scalar library only through `sqrt`. -/
theorem normalize_real_sqrt (cosf : ℝ → ℝ) (PI : ℝ) (v : Vec3 ℝ) :
    normalize (⟨cosf, Real.sqrt, PI⟩ : Numeric ℝ) v
      = normalize (⟨Real.cos, Real.sqrt, Real.pi⟩ : Numeric ℝ) v := rfl

/-! ### Threshold values of the cosine -/

theorem cosThreshold_real (t : ℝ) :
    cosThreshold (⟨Real.cos, Real.sqrt, Real.pi⟩ : Numeric ℝ) t
      = Real.cos (t * Real.pi / 180) := rfl

theorem passes_real_iff (t : ℝ) (fn ifn : Vec3 ℝ) :
    passes (⟨Real.cos, Real.sqrt, Real.pi⟩ : Numeric ℝ) t fn ifn = true
      ↔ Real.cos (t * Real.pi / 180) < dot fn ifn := by
  simp [passes, cosThreshold]

theorem cos_zero_deg : Real.cos (0 * Real.pi / 180) = 1 := by
  simp

theorem cos_180_deg : Real.cos (180 * Real.pi / 180) = -1 := by
  rw [show (180 : ℝ) * Real.pi / 180 = Real.pi by ring]
  exact Real.cos_pi

theorem cos_360_deg : Real.cos (360 * Real.pi / 180) = 1 := by
  rw [show (360 : ℝ) * Real.pi / 180 = 2 * Real.pi by ring]
  exact Real.cos_two_pi

theorem cos_60_deg : Real.cos (60 * Real.pi / 180) = 1 / 2 := by
  rw [show (60 : ℝ) * Real.pi / 180 = Real.pi / 3 by ring]
  exact Real.cos_pi_div_three

/-- The comparison value is antitone in the threshold on `[0, 180]`. -/
theorem cos_deg_antitone {t1 t2 : ℝ} (h0 : 0 ≤ t1) (h12 : t1 ≤ t2) (h180 : t2 ≤ 180) :
    Real.cos (t2 * Real.pi / 180) ≤ Real.cos (t1 * Real.pi / 180) := by
  have hpi : 0 < Real.pi := Real.pi_pos
  apply Real.cos_le_cos_of_nonneg_of_le_pi
  · positivity
  · rw [div_le_iff₀ (by norm_num : (0 : ℝ) < 180)]
    nlinarith
  · apply div_le_div_of_nonneg_right _ (by norm_num : (0 : ℝ) ≤ 180)
    exact mul_le_mul_of_nonneg_right h12 hpi.le

/-- The comparison value is strictly decreasing in the threshold on `[0, 180]`. -/
theorem cos_deg_strictAnti {t1 t2 : ℝ} (h0 : 0 ≤ t1) (h12 : t1 < t2) (h180 : t2 ≤ 180) :
    Real.cos (t2 * Real.pi / 180) < Real.cos (t1 * Real.pi / 180) := by
  have hpi : 0 < Real.pi := Real.pi_pos
  apply Real.cos_lt_cos_of_nonneg_of_le_pi
  · positivity
  · rw [div_le_iff₀ (by norm_num : (0 : ℝ) < 180)]
    nlinarith
  · apply div_lt_div_of_pos_right _ (by norm_num : (0 : ℝ) < 180)
    exact mul_lt_mul_of_pos_right h12 hpi

/-! ### Distances between unit vectors -/

theorem squaredNorm_sub (x a : Vec3 ℝ) :
    squaredNorm (x - a) = squaredNorm x + squaredNorm a - 2 * dot x a := by
  obtain ⟨x1, x2, x3⟩ := x
  obtain ⟨a1, a2, a3⟩ := a
  simp only [squaredNorm, dot, Prod.mk_sub_mk]
  ring

/-- Among unit vectors, the one with the larger dot product with `x` is nearer
to `x`. -/
theorem dist_lt_dist_of_dot_lt (x a b : Vec3 ℝ) (ha : UnitVec a) (hb : UnitVec b)
    (h : dot x b < dot x a) :
    dist (⟨Real.cos, Real.sqrt, Real.pi⟩ : Numeric ℝ) x a
      < dist (⟨Real.cos, Real.sqrt, Real.pi⟩ : Numeric ℝ) x b := by
  have ha1 : squaredNorm a = 1 := ha
  have hb1 : squaredNorm b = 1 := hb
  simp only [dist, norm]
  apply Real.sqrt_lt_sqrt (squaredNorm_nonneg _)
  rw [squaredNorm_sub, squaredNorm_sub, ha1, hb1]
  linarith

theorem dot_normalize (v a : Vec3 ℝ) (hv : v ≠ 0) :
    dot (normalize (⟨Real.cos, Real.sqrt, Real.pi⟩ : Numeric ℝ) v) a
      = dot v a / Real.sqrt (squaredNorm v) := by
  rw [normalize_of_ne_zero _ v hv]
  obtain ⟨x, y, z⟩ := v
  obtain ⟨a1, a2, a3⟩ := a
  simp only [dot]
  ring

theorem cos_90_deg : Real.cos (90 * Real.pi / 180) = 0 := by
  rw [show (90 : ℝ) * Real.pi / 180 = Real.pi / 2 by ring]
  exact Real.cos_pi_div_two

end RealLemmas

/-! ## Claims -/

section Claims

/-- C1. Fixed-valence engine: for every face table `F` (`m = F.rows`, `n = F.cols`),
face normals `FN`, adjacency `VF` and threshold, over any ordered field and any
`cos`, `sqrt`, `PI`: the output `CN` has exactly `m*n` rows; for every face `i < m`
and corner `j < n`, row `i*n+j` is `normalize` of the unweighted sum of `FN[k]` over
the entries `k` of `VF[F(i,j)]`, taken once per occurrence in the list, for which
`FN[i] . FN[k] > cos(corner_threshold*PI/180)`; and `normalize` leaves the zero
vector unchanged.  (The model is total, so the statement holds in particular for
all tables whose indices are in range.) -/
theorem per_corner_normals_rows {K : Type} [LinearOrderedField K] (num : Numeric K)
    (F : IndexMatrix) (FN : List (Vec3 K)) (VF : List (List Nat)) (corner_threshold : K) :
    (per_corner_normals num F FN VF corner_threshold).length = F.rows * F.cols ∧
    (∀ i j, i < F.rows → j < F.cols →
      row (per_corner_normals num F FN VF corner_threshold) (i * F.cols + j)
        = normalize num
            (((incident VF (F.coeff i j)).filter
                (fun k => decide (num.cos (corner_threshold * num.PI / 180)
                                    < dot (row FN i) (row FN k)))).map (row FN)).sum) ∧
    normalize num (0 : Vec3 K) = 0 := by
  obtain ⟨h1, h2, _⟩ :=
    per_corner_normals_fold_spec num F FN VF corner_threshold F.rows le_rfl
  refine ⟨h1, fun i j hi hj => ?_, ?_⟩
  · exact h2 i j hi hj
  · simp [normalize, squaredNorm, dot]

/-- C1, exercised on the two-triangle mesh over `ℝ` at corner `(1,1)`. -/
theorem per_corner_normals_rows_witness :
    row (per_corner_normals (⟨Real.cos, Real.sqrt, Real.pi⟩ : Numeric ℝ) twoTriangles
          [(0, 0, 1), (0, 1, 0)] twoTrianglesVF 20) (1 * 3 + 1)
      = normalize (⟨Real.cos, Real.sqrt, Real.pi⟩ : Numeric ℝ)
          (((incident twoTrianglesVF (twoTriangles.coeff 1 1)).filter
              (fun k => decide (Real.cos (20 * Real.pi / 180)
                  < dot (row [((0 : ℝ), (0 : ℝ), (1 : ℝ)), (0, 1, 0)] 1)
                        (row [((0 : ℝ), (0 : ℝ), (1 : ℝ)), (0, 1, 0)] k)))).map
              (row [((0 : ℝ), (0 : ℝ), (1 : ℝ)), (0, 1, 0)])).sum :=
  (per_corner_normals_rows (⟨Real.cos, Real.sqrt, Real.pi⟩ : Numeric ℝ) twoTriangles
    [(0, 0, 1), (0, 1, 0)] twoTrianglesVF 20).2.1 1 1 (by decide) (by decide)

/-- C2. Polygonal engine: for every `(I, C)` with `C` strictly increasing and every
polygon's corner range inside `I` (as for a valid `(I, C)`, where `C[0] = 0` and
`C[m] = len(I)`), the output `N` has `len(I)` rows and, for every polygon `p` and
local corner `i` in `[0, C[p+1]-C[p])` whose vertex `v = I[C[p]+i]` is a vertex id
(`v < |V|`): the list `VF[v]` the engine has built from `(I, C)` consists of the
polygons `k < m` in ascending order, each listed once per corner of `k` equal to `v`
(`listedPolygons`), and row `N[C[p]+i]` is `normalize` of the sum of `AA[k] * FN[k]`
over the entries `k` of that list for which
`FN[p] . FN[k] > cos(corner_threshold*PI/180)`. -/
theorem polygonN_rows {K : Type} [LinearOrderedField K] (num : Numeric K) (nV : Nat)
    (I C : List Nat) (corner_threshold : K) (FN : List (Vec3 K)) (AA : List K)
    (uninit : Nat → Vec3 K) (hC : StrictlyIncreasing C)
    (hlast : idx C (C.length - 1) ≤ I.length) :
    (polygonN num nV I C corner_threshold FN AA uninit).length = I.length ∧
    ∀ p i, p < C.length - 1 → i < idx C (p + 1) - idx C p → idx I (idx C p + i) < nV →
      incident (vertexPolygonAdjacency nV I C) (idx I (idx C p + i))
        = listedPolygons I C (idx I (idx C p + i)) (C.length - 1) ∧
      (∀ k, k ∈ listedPolygons I C (idx I (idx C p + i)) (C.length - 1) ↔
        k < C.length - 1 ∧
          ∃ i', i' < idx C (k + 1) - idx C k ∧ idx I (idx C p + i) = idx I (idx C k + i')) ∧
      row (polygonN num nV I C corner_threshold FN AA uninit) (idx C p + i)
        = normalize num
            (((listedPolygons I C (idx I (idx C p + i)) (C.length - 1)).filter
                (fun k => decide (num.cos (corner_threshold * num.PI / 180)
                                    < dot (row FN p) (row FN k)))).map
              (fun k => weight AA k • row FN k)).sum := by
  refine ⟨polygonN_length num nV I C corner_threshold FN AA uninit hC hlast, ?_⟩
  intro p i hp hi hv
  have hadj := incident_vertexPolygonAdjacency nV I C (idx I (idx C p + i)) hv
  refine ⟨hadj, ?_, ?_⟩
  · intro k
    rw [mem_listedPolygons, cornerCount_pos_iff]
  · have hrow := polygonN_row num nV I C corner_threshold FN AA uninit hC hlast p i hp hi
    rw [hadj] at hrow
    exact hrow

/-- C2, exercised on the quad-plus-triangle mesh over `ℝ` at the quad's corner on
the shared vertex 0, threshold 60: both polygons pass, the weights read are
`AA(0) = 2` and `AA(1) = 1`, and the row is `normalize(2 (0,0,1) + 1 (0,3/5,4/5))`. -/
theorem polygonN_rows_witness :
    StrictlyIncreasing quadTriC ∧ idx quadTriC (quadTriC.length - 1) ≤ quadTriI.length ∧
    incident (vertexPolygonAdjacency 6 quadTriI quadTriC) 0 = [0, 1] ∧
    row (polygonN (⟨Real.cos, Real.sqrt, Real.pi⟩ : Numeric ℝ) 6 quadTriI quadTriC 60
        [(0, 0, 1), (0, 3 / 5, 4 / 5)] [2, 1, 2, 2, 1, 1, 1] (fun _ => (7, 7, 7))) 0
      = normalize (⟨Real.cos, Real.sqrt, Real.pi⟩ : Numeric ℝ) (0, 3 / 5, 14 / 5) := by
  have h := (polygonN_rows (⟨Real.cos, Real.sqrt, Real.pi⟩ : Numeric ℝ) 6 quadTriI quadTriC 60
    [(0, 0, 1), (0, 3 / 5, 4 / 5)] [2, 1, 2, 2, 1, 1, 1] (fun _ => (7, 7, 7))
    (by decide) (by decide)).2 0 0 (by decide) (by decide) (by decide)
  obtain ⟨hadj, _, hrow⟩ := h
  have hl : listedPolygons quadTriI quadTriC (idx quadTriI (idx quadTriC 0 + 0))
      (quadTriC.length - 1) = [0, 1] := by decide
  have hidx : idx quadTriC 0 + 0 = 0 := by decide
  have hv : idx quadTriI 0 = 0 := by decide
  rw [hl, hidx] at hrow
  rw [hl, hidx, hv] at hadj
  refine ⟨by decide, by decide, hadj, ?_⟩
  rw [hrow]
  have e0 : row [((0 : ℝ), (0 : ℝ), (1 : ℝ)), (0, 3 / 5, 4 / 5)] 0 = (0, 0, 1) := rfl
  have e1 : row [((0 : ℝ), (0 : ℝ), (1 : ℝ)), (0, 3 / 5, 4 / 5)] 1 = (0, 3 / 5, 4 / 5) := rfl
  have hp1 : decide (Real.cos (60 * Real.pi / 180) < dot ((0, 0, 1) : Vec3 ℝ) (0, 0, 1))
      = true := by
    rw [cos_60_deg]; norm_num [dot]
  have hp2 : decide (Real.cos (60 * Real.pi / 180)
      < dot ((0, 0, 1) : Vec3 ℝ) (0, 3 / 5, 4 / 5)) = true := by
    rw [cos_60_deg]; norm_num [dot]
  simp only [List.filter, e0, e1, hp1, hp2, List.map, List.sum_cons, List.sum_nil, weight,
    List.getD_cons_zero, List.getD_cons_succ]
  congr 1
  simp only [Prod.smul_mk, Prod.mk_add_mk, smul_eq_mul, Prod.mk.injEq, Prod.mk_zero_zero,
    add_zero]
  norm_num

/-- C3. Polygonal engine, `NN` reconstruction: whenever the engine completes
(no `assert` fails) with outputs `N` and `NN`, `NN` has `3*rows(FF)` rows and, for
every polygon `p` and local corner `i` in `[0, np)`, with `t` the value of the
triangle counter for `(p, i)`, `NN[3t] = N[C[p]+i]`, `NN[3t+1] = N[C[p]+((i+1) mod np)]`
and `NN[3t+2] = FN[p]` exactly; and the engine does complete when `FF` is in the
triangulator's fan order. -/
theorem polygonNN_rows {K : Type} [LinearOrderedField K] (num : Numeric K) (nV : Nat)
    (I C : List Nat) (corner_threshold : K) (FN : List (Vec3 K))
    (FF : List (Nat × Nat × Nat)) (AA : List K) (uninitN uninitNN : Nat → Vec3 K) :
    (∀ N NN, per_corner_normals_polygonal num nV I C corner_threshold FN FF AA
        uninitN uninitNN = some (N, NN) →
      NN.length = 3 * FF.length ∧
      ∀ p i, p < C.length - 1 → i < idx C (p + 1) - idx C p →
        row NN (3 * triangleIndex C p i) = row N (idx C p + i) ∧
        row NN (3 * triangleIndex C p i + 1)
          = row N (idx C p + ((i + 1) % (idx C (p + 1) - idx C p))) ∧
        row NN (3 * triangleIndex C p i + 2) = row FN p) ∧
    (FanContract nV I C FF →
      ∃ N NN, per_corner_normals_polygonal num nV I C corner_threshold FN FF AA
        uninitN uninitNN = some (N, NN)) := by
  constructor
  · intro N NN h
    simp only [per_corner_normals_polygonal] at h
    cases hNN : polygonNN nV I C FN FF
        (polygonN num nV I C corner_threshold FN AA uninitN) uninitNN with
    | none =>
      rw [hNN] at h
      exact absurd h (by simp)
    | some NN1 =>
      rw [hNN] at h
      simp only [Option.some.injEq, Prod.mk.injEq] at h
      obtain ⟨hN, hNN1⟩ := h
      subst hN
      subst hNN1
      have hc := contract_of_polygonNN nV I C FN FF _ uninitNN NN1 hNN
      obtain ⟨NN2, e2, l2, r2⟩ := polygonNN_of_contract nV I C FN FF
        (polygonN num nV I C corner_threshold FN AA uninitN) uninitNN hc
      rw [hNN] at e2
      simp only [Option.some.injEq] at e2
      subst e2
      refine ⟨by rw [l2]; ring, fun p i hp hi => ?_⟩
      obtain ⟨a, b, c⟩ := r2 p i hp hi
      simp only [Nat.add_zero, Nat.mod_eq_of_lt hi] at a
      rw [Nat.mul_comm 3 (triangleIndex C p i)]
      exact ⟨a, b, c⟩
  · intro hc
    obtain ⟨NN, e, _, _⟩ := polygonNN_of_contract nV I C FN FF
      (polygonN num nV I C corner_threshold FN AA uninitN) uninitNN hc
    exact ⟨_, NN, by simp only [per_corner_normals_polygonal]; rw [e]⟩

/-- C3, exercised on the quad-plus-triangle mesh and its fan triangulation. -/
theorem polygonNN_rows_witness :
    FanContract 6 quadTriI quadTriC quadTriFF ∧
    ∃ N NN, per_corner_normals_polygonal (⟨Real.cos, Real.sqrt, Real.pi⟩ : Numeric ℝ) 6
      quadTriI quadTriC 60 [(0, 0, 1), (0, 3 / 5, 4 / 5)] quadTriFF [2, 2, 2, 2, 1, 1, 1]
      (fun _ => (7, 7, 7)) (fun _ => (9, 9, 9)) = some (N, NN) :=
  ⟨by decide,
    (polygonNN_rows (⟨Real.cos, Real.sqrt, Real.pi⟩ : Numeric ℝ) 6 quadTriI quadTriC 60
      [(0, 0, 1), (0, 3 / 5, 4 / 5)] quadTriFF [2, 2, 2, 2, 1, 1, 1]
      (fun _ => (7, 7, 7)) (fun _ => (9, 9, 9))).2 (by decide)⟩

/-- C4 (code evaluated at the failing input). A square quad `(0,0,0),(2,0,0),(2,2,0),
(0,2,0)` (area 4, normal `(0,0,1)`) and a triangle `(0,0,0),(-1,0,0),(0,-4/5,3/5)`
(area 1/2, normal `(0,3/5,4/5)`) share vertex `0`; threshold 60.  The area array
`AA = doublearea(VV,FF)` has one entry per fan triangle: the four fan triangles of
the square have double area 2, the three of the triangle 1/3, so
`AA = [2,2,2,2,1/3,1/3,1/3]`.  Line 165 reads `AA(n)` at the polygon ids `n = 0, 1`,
which are the first two fan triangles of the square, so both polygons get weight 2:
the corner normal at the shared vertex is the unweighted average and is not closer
to the quad normal than to that average.  Weighted by the polygons' own double
areas, 8 and 1, the corner normal would be closer to the quad normal, as the claim
says. -/
theorem polygon_area_weighting_failing_input :
    (UnitVec ((0, 0, 1) : Vec3 ℝ) ∧ UnitVec ((0, 3 / 5, 4 / 5) : Vec3 ℝ) ∧
      ((0, 0, 1) : Vec3 ℝ) ≠ (0, 3 / 5, 4 / 5) ∧
      passes (⟨Real.cos, Real.sqrt, Real.pi⟩ : Numeric ℝ) 60 (0, 0, 1) (0, 0, 1) = true ∧
      passes (⟨Real.cos, Real.sqrt, Real.pi⟩ : Numeric ℝ) 60 (0, 0, 1) (0, 3 / 5, 4 / 5)
        = true) ∧
    (weight [(2 : ℝ), 2, 2, 2, 1 / 3, 1 / 3, 1 / 3] 0 = 2 ∧
      weight [(2 : ℝ), 2, 2, 2, 1 / 3, 1 / 3, 1 / 3] 1 = 2) ∧
    row (polygonN (⟨Real.cos, Real.sqrt, Real.pi⟩ : Numeric ℝ) 6 quadTriI quadTriC 60
        [(0, 0, 1), (0, 3 / 5, 4 / 5)] [2, 2, 2, 2, 1 / 3, 1 / 3, 1 / 3] (fun _ => 0)) 0
      = normalize (⟨Real.cos, Real.sqrt, Real.pi⟩ : Numeric ℝ)
          ((0, 0, 1) + (0, 3 / 5, 4 / 5)) ∧
    ¬ (dist (⟨Real.cos, Real.sqrt, Real.pi⟩ : Numeric ℝ)
          (row (polygonN (⟨Real.cos, Real.sqrt, Real.pi⟩ : Numeric ℝ) 6 quadTriI quadTriC 60
            [(0, 0, 1), (0, 3 / 5, 4 / 5)] [2, 2, 2, 2, 1 / 3, 1 / 3, 1 / 3]
            (fun _ => 0)) 0)
          (0, 0, 1)
        < dist (⟨Real.cos, Real.sqrt, Real.pi⟩ : Numeric ℝ)
          (row (polygonN (⟨Real.cos, Real.sqrt, Real.pi⟩ : Numeric ℝ) 6 quadTriI quadTriC 60
            [(0, 0, 1), (0, 3 / 5, 4 / 5)] [2, 2, 2, 2, 1 / 3, 1 / 3, 1 / 3]
            (fun _ => 0)) 0)
          (normalize (⟨Real.cos, Real.sqrt, Real.pi⟩ : Numeric ℝ)
            ((0, 0, 1) + (0, 3 / 5, 4 / 5)))) ∧
    dist (⟨Real.cos, Real.sqrt, Real.pi⟩ : Numeric ℝ)
        (normalize (⟨Real.cos, Real.sqrt, Real.pi⟩ : Numeric ℝ)
          ((8 : ℝ) • ((0, 0, 1) : Vec3 ℝ) + (1 : ℝ) • ((0, 3 / 5, 4 / 5) : Vec3 ℝ)))
        (0, 0, 1)
      < dist (⟨Real.cos, Real.sqrt, Real.pi⟩ : Numeric ℝ)
        (normalize (⟨Real.cos, Real.sqrt, Real.pi⟩ : Numeric ℝ)
          ((8 : ℝ) • ((0, 0, 1) : Vec3 ℝ) + (1 : ℝ) • ((0, 3 / 5, 4 / 5) : Vec3 ℝ)))
        (normalize (⟨Real.cos, Real.sqrt, Real.pi⟩ : Numeric ℝ)
          ((0, 0, 1) + (0, 3 / 5, 4 / 5))) := by
  have hp1 : passes (⟨Real.cos, Real.sqrt, Real.pi⟩ : Numeric ℝ) 60
      ((0, 0, 1) : Vec3 ℝ) (0, 0, 1) = true := by
    rw [passes_real_iff, cos_60_deg]; norm_num [dot]
  have hp2 : passes (⟨Real.cos, Real.sqrt, Real.pi⟩ : Numeric ℝ) 60
      ((0, 0, 1) : Vec3 ℝ) (0, 3 / 5, 4 / 5) = true := by
    rw [passes_real_iff, cos_60_deg]; norm_num [dot]
  have hq : UnitVec ((0, 0, 1) : Vec3 ℝ) := by norm_num [UnitVec, squaredNorm, dot]
  have hrow := polygonN_row (⟨Real.cos, Real.sqrt, Real.pi⟩ : Numeric ℝ) 6 quadTriI quadTriC 60
    [(0, 0, 1), (0, 3 / 5, 4 / 5)] [2, 2, 2, 2, 1 / 3, 1 / 3, 1 / 3] (fun _ => 0)
    (by decide) (by decide) 0 0 (by decide) (by decide)
  have hinc : incident (vertexPolygonAdjacency 6 quadTriI quadTriC)
      (idx quadTriI (idx quadTriC 0 + 0)) = [0, 1] := by decide
  have hidx : idx quadTriC 0 + 0 = 0 := by decide
  rw [hinc, hidx] at hrow
  have hsum : weightedSum (⟨Real.cos, Real.sqrt, Real.pi⟩ : Numeric ℝ)
      [(0, 0, 1), (0, 3 / 5, 4 / 5)] [2, 2, 2, 2, 1 / 3, 1 / 3, 1 / 3] 60
      (row [(0, 0, 1), (0, 3 / 5, 4 / 5)] 0) [0, 1]
      = (2 : ℝ) • (((0, 0, 1) : Vec3 ℝ) + (0, 3 / 5, 4 / 5)) := by
    have e0 : row [((0 : ℝ), (0 : ℝ), (1 : ℝ)), (0, 3 / 5, 4 / 5)] 0 = (0, 0, 1) := rfl
    have e1 : row [((0 : ℝ), (0 : ℝ), (1 : ℝ)), (0, 3 / 5, 4 / 5)] 1 = (0, 3 / 5, 4 / 5) := rfl
    simp only [weightedSum, List.filter, e0, e1, hp1, hp2, List.map, List.sum_cons,
      List.sum_nil, weight, List.getD_cons_zero, List.getD_cons_succ]
    simp only [Prod.smul_mk, Prod.mk_add_mk, smul_eq_mul, Prod.mk.injEq, Prod.mk_zero_zero,
      add_zero]
    norm_num
  rw [hsum, normalize_smul 2 (by norm_num)] at hrow
  refine ⟨⟨hq, by norm_num [UnitVec, squaredNorm, dot], by norm_num, hp1, hp2⟩,
    ⟨rfl, rfl⟩, hrow, ?_, ?_⟩
  · rw [hrow]
    have hzero : dist (⟨Real.cos, Real.sqrt, Real.pi⟩ : Numeric ℝ)
        (normalize (⟨Real.cos, Real.sqrt, Real.pi⟩ : Numeric ℝ)
          (((0, 0, 1) : Vec3 ℝ) + (0, 3 / 5, 4 / 5)))
        (normalize (⟨Real.cos, Real.sqrt, Real.pi⟩ : Numeric ℝ)
          (((0, 0, 1) : Vec3 ℝ) + (0, 3 / 5, 4 / 5))) = 0 := by
      simp [dist, norm, squaredNorm, dot]
    rw [hzero, not_lt]
    exact Real.sqrt_nonneg _
  · have hv1 : (8 : ℝ) • ((0, 0, 1) : Vec3 ℝ) + (1 : ℝ) • ((0, 3 / 5, 4 / 5) : Vec3 ℝ)
        = ((0, 3 / 5, 44 / 5) : Vec3 ℝ) := by
      simp only [Prod.smul_mk, Prod.mk_add_mk, smul_eq_mul, Prod.mk.injEq]
      norm_num
    have hv2 : ((0, 0, 1) : Vec3 ℝ) + (0, 3 / 5, 4 / 5) = ((0, 3 / 5, 9 / 5) : Vec3 ℝ) := by
      simp only [Prod.mk_add_mk, Prod.mk.injEq]
      norm_num
    rw [hv1, hv2]
    have hn1 : ((0, 3 / 5, 44 / 5) : Vec3 ℝ) ≠ 0 := by
      intro h
      have h3 : (44 / 5 : ℝ) = 0 := congrArg (fun v : Vec3 ℝ => v.2.2) h
      norm_num at h3
    have hn2 : ((0, 3 / 5, 9 / 5) : Vec3 ℝ) ≠ 0 := by
      intro h
      have h3 : (9 / 5 : ℝ) = 0 := congrArg (fun v : Vec3 ℝ => v.2.2) h
      norm_num at h3
    have hs2 : squaredNorm ((0, 3 / 5, 9 / 5) : Vec3 ℝ) = 18 / 5 := by
      norm_num [squaredNorm, dot]
    have hs1pos : 0 < Real.sqrt (squaredNorm ((0, 3 / 5, 44 / 5) : Vec3 ℝ)) :=
      Real.sqrt_pos.mpr ((squaredNorm_pos_iff _).mpr hn1)
    have hs2lt : (81 / 44 : ℝ) < Real.sqrt (18 / 5) := by
      rw [Real.lt_sqrt (by norm_num)]
      norm_num
    have hs2pos : (0 : ℝ) < Real.sqrt (18 / 5) := lt_trans (by norm_num) hs2lt
    apply dist_lt_dist_of_dot_lt _ _ _ hq (unit_normalize _ hn2)
    rw [dot_normalize _ _ hn1, dot_normalize _ _ hn1, dot_comm _ (normalize _ _),
      dot_normalize _ _ hn2, hs2]
    have d1 : dot ((0, 3 / 5, 44 / 5) : Vec3 ℝ) (0, 0, 1) = 44 / 5 := by norm_num [dot]
    have d2 : dot ((0, 3 / 5, 9 / 5) : Vec3 ℝ) (0, 3 / 5, 44 / 5) = 81 / 5 := by
      norm_num [dot]
    rw [d1, d2]
    apply div_lt_div_of_pos_right _ hs1pos
    rw [div_lt_iff₀ hs2pos]
    linarith

/-- C5 (as stated, refuted). Two coincident triangles with opposite orientation
(`twoTriangles` folded flat, unit normals `(0,0,1)` and `(0,0,-1)`), threshold 180:
at corner `(0,1)` the incident face `1` fails the strict test `-1 > cos(180°) = -1`,
so `CN[1] = (0,0,1)`, while the normalized sum over all incident faces is the
zero vector. -/
theorem threshold_180_counterexample :
    UnitVec ((0, 0, 1) : Vec3 ℝ) ∧ UnitVec ((0, 0, -1) : Vec3 ℝ) ∧
    row (per_corner_normals (⟨Real.cos, Real.sqrt, Real.pi⟩ : Numeric ℝ) twoTriangles
          [(0, 0, 1), (0, 0, -1)] twoTrianglesVF 180) (0 * 3 + 1)
      ≠ normalize (⟨Real.cos, Real.sqrt, Real.pi⟩ : Numeric ℝ)
          (((incident twoTrianglesVF (twoTriangles.coeff 0 1)).map
            (row [((0 : ℝ), (0 : ℝ), (1 : ℝ)), (0, 0, -1)])).sum) := by
  refine ⟨by norm_num [UnitVec, squaredNorm, dot], by norm_num [UnitVec, squaredNorm, dot], ?_⟩
  have hrow := per_corner_normals_row (⟨Real.cos, Real.sqrt, Real.pi⟩ : Numeric ℝ)
    twoTriangles [(0, 0, 1), (0, 0, -1)] twoTrianglesVF 180 0 1 (by decide) (by decide)
  have hinc : incident twoTrianglesVF (twoTriangles.coeff 0 1) = [0, 1] := by decide
  have hcols : twoTriangles.cols = 3 := rfl
  rw [hinc, hcols] at hrow
  have e0 : row [((0 : ℝ), (0 : ℝ), (1 : ℝ)), (0, 0, -1)] 0 = (0, 0, 1) := rfl
  have e1 : row [((0 : ℝ), (0 : ℝ), (1 : ℝ)), (0, 0, -1)] 1 = (0, 0, -1) := rfl
  have hp0 : passes (⟨Real.cos, Real.sqrt, Real.pi⟩ : Numeric ℝ) 180
      ((0, 0, 1) : Vec3 ℝ) (0, 0, 1) = true := by
    rw [passes_real_iff, cos_180_deg]; norm_num [dot]
  have hp1 : passes (⟨Real.cos, Real.sqrt, Real.pi⟩ : Numeric ℝ) 180
      ((0, 0, 1) : Vec3 ℝ) (0, 0, -1) = false := by
    rw [← Bool.not_eq_true, passes_real_iff, cos_180_deg]; norm_num [dot]
  have hsum : gatedSum (⟨Real.cos, Real.sqrt, Real.pi⟩ : Numeric ℝ)
      [(0, 0, 1), (0, 0, -1)] 180 (row [(0, 0, 1), (0, 0, -1)] 0) [0, 1]
      = ((0, 0, 1) : Vec3 ℝ) := by
    simp only [gatedSum, List.filter, e0, e1, hp0, hp1, List.map, List.sum_cons,
      List.sum_nil, add_zero]
  rw [hsum, normalize_unit _ (by norm_num [UnitVec, squaredNorm, dot])] at hrow
  rw [hrow, hinc]
  have hall : ([0, 1].map (row [((0 : ℝ), (0 : ℝ), (1 : ℝ)), (0, 0, -1)])).sum = 0 := by
    simp only [List.map, e0, e1, List.sum_cons, List.sum_nil, Prod.mk_add_mk, add_zero]
    norm_num
  rw [hall, normalize_zero]
  norm_num

/-- C5 (amended). Threshold = 180 degrees, fixed-valence engine: for unit face
normals, every face `k` listed in `VF[F(i,j)]` is included in the accumulation of
corner `(i,j)` unless its normal is exactly opposite to that of face `i`; so when
no listed face has `FN[k] = -FN[i]`, `CN[i*n+j]` is the normalized unweighted sum of
the normals of all faces listed for the vertex. -/
theorem threshold_180_vertex_average (F : IndexMatrix) (FN : List (Vec3 ℝ))
    (VF : List (List Nat)) (i j : Nat) (hi : i < F.rows) (hj : j < F.cols)
    (hunit : UnitVec (row FN i))
    (hinc : ∀ k ∈ incident VF (F.coeff i j), UnitVec (row FN k) ∧ row FN k ≠ -row FN i) :
    (∀ k ∈ incident VF (F.coeff i j),
      passes (⟨Real.cos, Real.sqrt, Real.pi⟩ : Numeric ℝ) 180 (row FN i) (row FN k) = true) ∧
    row (per_corner_normals (⟨Real.cos, Real.sqrt, Real.pi⟩ : Numeric ℝ) F FN VF 180)
        (i * F.cols + j)
      = normalize (⟨Real.cos, Real.sqrt, Real.pi⟩ : Numeric ℝ)
          (((incident VF (F.coeff i j)).map (row FN)).sum) := by
  have hall : ∀ k ∈ incident VF (F.coeff i j),
      passes (⟨Real.cos, Real.sqrt, Real.pi⟩ : Numeric ℝ) 180 (row FN i) (row FN k) = true := by
    intro k hk
    obtain ⟨hu, hne⟩ := hinc k hk
    rw [passes_real_iff, cos_180_deg]
    rcases lt_or_eq_of_le (neg_one_le_dot (row FN i) (row FN k) hunit hu) with h | h
    · exact h
    · exact absurd (eq_neg_of_dot_eq_neg_one _ _ hunit hu h.symm) hne
  refine ⟨hall, ?_⟩
  rw [per_corner_normals_row _ F FN VF 180 i j hi hj, gatedSum_of_all_pass _ FN 180 _ _ hall]

/-- C5 (amended), exercised on two triangles folded by 90 degrees. -/
theorem threshold_180_vertex_average_witness :
    row (per_corner_normals (⟨Real.cos, Real.sqrt, Real.pi⟩ : Numeric ℝ) twoTriangles
        [(0, 0, 1), (0, 1, 0)] twoTrianglesVF 180) (0 * twoTriangles.cols + 1)
      = normalize (⟨Real.cos, Real.sqrt, Real.pi⟩ : Numeric ℝ)
          (((incident twoTrianglesVF (twoTriangles.coeff 0 1)).map
            (row [((0 : ℝ), (0 : ℝ), (1 : ℝ)), (0, 1, 0)])).sum) :=
  (threshold_180_vertex_average twoTriangles [(0, 0, 1), (0, 1, 0)] twoTrianglesVF 0 1
    (by decide) (by decide) (by norm_num [UnitVec, squaredNorm, dot, row])
    (by
      rw [show incident twoTrianglesVF (twoTriangles.coeff 0 1) = [0, 1] from by decide]
      intro k hk
      simp only [List.mem_cons, List.mem_singleton, List.not_mem_nil, or_false] at hk
      rcases hk with rfl | rfl <;>
        norm_num [UnitVec, squaredNorm, dot, row])).2

/-- C9. Threshold monotonicity: for fixed `F`, `FN`, `VF` and a fixed corner `(i,j)`,
if `0 <= t1 <= t2 <= 180` then every incident face `k` passing the test
`FN[i] . FN[k] > cos(t1*pi/180)` passes it at `t2`: the faces accumulated at `t1`
form a sublist, hence a subset, of those accumulated at `t2`. -/
theorem threshold_monotone (F : IndexMatrix) (FN : List (Vec3 ℝ)) (VF : List (List Nat))
    (i j : Nat) (t1 t2 : ℝ) (h0 : 0 ≤ t1) (h12 : t1 ≤ t2) (h180 : t2 ≤ 180) :
    ((incident VF (F.coeff i j)).filter
        (fun k => passes (⟨Real.cos, Real.sqrt, Real.pi⟩ : Numeric ℝ) t1
          (row FN i) (row FN k))).Sublist
      ((incident VF (F.coeff i j)).filter
        (fun k => passes (⟨Real.cos, Real.sqrt, Real.pi⟩ : Numeric ℝ) t2
          (row FN i) (row FN k))) ∧
    ∀ k, k ∈ (incident VF (F.coeff i j)).filter
        (fun k => passes (⟨Real.cos, Real.sqrt, Real.pi⟩ : Numeric ℝ) t1
          (row FN i) (row FN k)) →
      k ∈ (incident VF (F.coeff i j)).filter
        (fun k => passes (⟨Real.cos, Real.sqrt, Real.pi⟩ : Numeric ℝ) t2
          (row FN i) (row FN k)) := by
  have himp : ∀ k,
      passes (⟨Real.cos, Real.sqrt, Real.pi⟩ : Numeric ℝ) t1 (row FN i) (row FN k) = true →
      passes (⟨Real.cos, Real.sqrt, Real.pi⟩ : Numeric ℝ) t2 (row FN i) (row FN k) = true := by
    intro k hk
    rw [passes_real_iff] at hk ⊢
    exact lt_of_le_of_lt (cos_deg_antitone h0 h12 h180) hk
  have hsub := List.monotone_filter_right (incident VF (F.coeff i j)) (fun k => himp k)
  exact ⟨hsub, fun k hk => hsub.subset hk⟩

/-- C9, exercised at thresholds 10 and 100 on corner `(0,1)` of the two-triangle mesh. -/
theorem threshold_monotone_witness :
    ((incident twoTrianglesVF (twoTriangles.coeff 0 1)).filter
        (fun k => passes (⟨Real.cos, Real.sqrt, Real.pi⟩ : Numeric ℝ) 10
          (row [(0, 0, 1), (0, 1, 0)] 0) (row [(0, 0, 1), (0, 1, 0)] k))).Sublist
      ((incident twoTrianglesVF (twoTriangles.coeff 0 1)).filter
        (fun k => passes (⟨Real.cos, Real.sqrt, Real.pi⟩ : Numeric ℝ) 100
          (row [(0, 0, 1), (0, 1, 0)] 0) (row [(0, 0, 1), (0, 1, 0)] k))) :=
  (threshold_monotone twoTriangles [(0, 0, 1), (0, 1, 0)] twoTrianglesVF 0 1 10 100
    (by norm_num) (by norm_num) (by norm_num)).1

/-- C10. Two-triangle fold: for two triangles whose unit normals `n0`, `n1` are at the
170-degree fold angle (the normals are 170 degrees apart, `n0 . n1 = cos(170°)`; the
statement also covers the reading in which the dihedral angle is 170 degrees and
the normals are 10 degrees apart, `n0 . n1 = cos(10°)`), at every corner `(f, j)`
whose vertex lies on the shared edge (its incident faces are exactly the two
triangles), the fixed-valence engine with threshold 10 gives the corner its own
face normal `n_f` (the other face is rejected), and with threshold 175 gives
`normalize(n0 + n1)`. -/
theorem two_triangle_fold (F : IndexMatrix) (VF : List (List Nat)) (n0 n1 : Vec3 ℝ)
    (hrows : F.rows = 2) (hcols : F.cols = 3) (h0 : UnitVec n0) (h1 : UnitVec n1)
    (hfold : dot n0 n1 = Real.cos (170 * Real.pi / 180) ∨
      dot n0 n1 = Real.cos (10 * Real.pi / 180))
    (f j : Nat) (hf : f < 2) (hj : j < 3)
    (hshared : (incident VF (F.coeff f j)).Perm [0, 1]) :
    row (per_corner_normals (⟨Real.cos, Real.sqrt, Real.pi⟩ : Numeric ℝ) F [n0, n1] VF 10)
        (f * 3 + j) = row [n0, n1] f ∧
    row (per_corner_normals (⟨Real.cos, Real.sqrt, Real.pi⟩ : Numeric ℝ) F [n0, n1] VF 175)
        (f * 3 + j)
      = normalize (⟨Real.cos, Real.sqrt, Real.pi⟩ : Numeric ℝ) (n0 + n1) := by
  have e0 : row [n0, n1] 0 = n0 := rfl
  have e1 : row [n0, n1] 1 = n1 := rfl
  have d00 : dot n0 n0 = 1 := h0
  have d11 : dot n1 n1 = 1 := h1
  have c10 : Real.cos (10 * Real.pi / 180) < 1 := by
    have := cos_deg_strictAnti (le_refl (0 : ℝ)) (by norm_num : (0 : ℝ) < 10) (by norm_num)
    rwa [cos_zero_deg] at this
  have c175 : Real.cos (175 * Real.pi / 180) < 1 := by
    have := cos_deg_strictAnti (le_refl (0 : ℝ)) (by norm_num : (0 : ℝ) < 175) (by norm_num)
    rwa [cos_zero_deg] at this
  have c170_10 : Real.cos (170 * Real.pi / 180) < Real.cos (10 * Real.pi / 180) :=
    cos_deg_strictAnti (by norm_num) (by norm_num) (by norm_num)
  have c175_170 : Real.cos (175 * Real.pi / 180) < Real.cos (170 * Real.pi / 180) :=
    cos_deg_strictAnti (by norm_num) (by norm_num) (by norm_num)
  have hhi : dot n0 n1 ≤ Real.cos (10 * Real.pi / 180) := by
    rcases hfold with h | h
    · rw [h]; exact c170_10.le
    · rw [h]
  have hlo : Real.cos (175 * Real.pi / 180) < dot n0 n1 := by
    rcases hfold with h | h
    · rw [h]; exact c175_170
    · rw [h]; exact lt_trans c175_170 c170_10
  have d10 : dot n1 n0 = dot n0 n1 := dot_comm n1 n0
  have hi : f < F.rows := by rw [hrows]; exact hf
  have hj' : j < F.cols := by rw [hcols]; exact hj
  have r10 := per_corner_normals_row (⟨Real.cos, Real.sqrt, Real.pi⟩ : Numeric ℝ) F [n0, n1]
    VF 10 f j hi hj'
  have r175 := per_corner_normals_row (⟨Real.cos, Real.sqrt, Real.pi⟩ : Numeric ℝ) F [n0, n1]
    VF 175 f j hi hj'
  rw [hcols, gatedSum_perm _ _ _ _ hshared] at r10 r175
  rw [r10, r175]
  have hcases : f = 0 ∨ f = 1 := by omega
  rcases hcases with rfl | rfl
  · have p1 : passes (⟨Real.cos, Real.sqrt, Real.pi⟩ : Numeric ℝ) 10 n0 n0 = true := by
      rw [passes_real_iff, d00]; exact c10
    have p2 : passes (⟨Real.cos, Real.sqrt, Real.pi⟩ : Numeric ℝ) 10 n0 n1 = false := by
      rw [← Bool.not_eq_true, passes_real_iff]; exact not_lt.mpr hhi
    have p3 : passes (⟨Real.cos, Real.sqrt, Real.pi⟩ : Numeric ℝ) 175 n0 n0 = true := by
      rw [passes_real_iff, d00]; exact c175
    have p4 : passes (⟨Real.cos, Real.sqrt, Real.pi⟩ : Numeric ℝ) 175 n0 n1 = true := by
      rw [passes_real_iff]; exact hlo
    constructor
    · simp only [gatedSum, List.filter, e0, e1, p1, p2, List.map, List.sum_cons,
        List.sum_nil, add_zero]
      exact normalize_unit n0 h0
    · simp only [gatedSum, List.filter, e0, e1, p3, p4, List.map, List.sum_cons,
        List.sum_nil, add_zero]
  · have p1 : passes (⟨Real.cos, Real.sqrt, Real.pi⟩ : Numeric ℝ) 10 n1 n1 = true := by
      rw [passes_real_iff, d11]; exact c10
    have p2 : passes (⟨Real.cos, Real.sqrt, Real.pi⟩ : Numeric ℝ) 10 n1 n0 = false := by
      rw [← Bool.not_eq_true, passes_real_iff, d10]; exact not_lt.mpr hhi
    have p3 : passes (⟨Real.cos, Real.sqrt, Real.pi⟩ : Numeric ℝ) 175 n1 n1 = true := by
      rw [passes_real_iff, d11]; exact c175
    have p4 : passes (⟨Real.cos, Real.sqrt, Real.pi⟩ : Numeric ℝ) 175 n1 n0 = true := by
      rw [passes_real_iff, d10]; exact hlo
    constructor
    · simp only [gatedSum, List.filter, e0, e1, p1, p2, List.map, List.sum_cons,
        List.sum_nil, add_zero]
      exact normalize_unit n1 h1
    · simp only [gatedSum, List.filter, e0, e1, p3, p4, List.map, List.sum_cons,
        List.sum_nil, add_zero]

/-- C10, exercised on `twoTriangles` with `n0 = (1,0,0)`, `n1 = (cos 170°, sin 170°, 0)`
at corner `(1,0)`, whose vertex `2` lies on the shared edge. -/
theorem two_triangle_fold_witness :
    row (per_corner_normals (⟨Real.cos, Real.sqrt, Real.pi⟩ : Numeric ℝ) twoTriangles
        [(1, 0, 0), (Real.cos (170 * Real.pi / 180), Real.sin (170 * Real.pi / 180), 0)]
        twoTrianglesVF 10) (1 * 3 + 0)
      = row [((1 : ℝ), (0 : ℝ), (0 : ℝ)),
          (Real.cos (170 * Real.pi / 180), Real.sin (170 * Real.pi / 180), 0)] 1 ∧
    row (per_corner_normals (⟨Real.cos, Real.sqrt, Real.pi⟩ : Numeric ℝ) twoTriangles
        [(1, 0, 0), (Real.cos (170 * Real.pi / 180), Real.sin (170 * Real.pi / 180), 0)]
        twoTrianglesVF 175) (1 * 3 + 0)
      = normalize (⟨Real.cos, Real.sqrt, Real.pi⟩ : Numeric ℝ)
          (((1 : ℝ), (0 : ℝ), (0 : ℝ))
            + (Real.cos (170 * Real.pi / 180), Real.sin (170 * Real.pi / 180), 0)) :=
  two_triangle_fold twoTriangles twoTrianglesVF (1, 0, 0)
    (Real.cos (170 * Real.pi / 180), Real.sin (170 * Real.pi / 180), 0) rfl rfl
    (by norm_num [UnitVec, squaredNorm, dot])
    (by
      have h := Real.cos_sq_add_sin_sq (170 * Real.pi / 180)
      simp only [UnitVec, squaredNorm, dot]
      nlinarith)
    (Or.inl (by simp [dot])) 1 0 (by decide) (by decide)
    (by rw [show incident twoTrianglesVF (twoTriangles.coeff 1 0) = [0, 1] from by decide])

/-- C11. Adjacency membership: the `VF` the polygonal engine builds from `(I, C)` has
one entry (possibly empty) for every vertex id in `[0, |V|)`, and for every such
vertex `v` and every `p`, `p` occurs in `VF[v]` if and only if `p` is a polygon
(`p < m`) and `v = I[C[p]+i]` for some local corner `i` in `[0, C[p+1]-C[p])`. -/
theorem adjacency_membership (nV : Nat) (I C : List Nat) :
    (vertexPolygonAdjacency nV I C).length = nV ∧
    ∀ v, v < nV → ∀ p,
      (p ∈ incident (vertexPolygonAdjacency nV I C) v ↔
        p < C.length - 1 ∧ ∃ i, i < idx C (p + 1) - idx C p ∧ v = idx I (idx C p + i)) := by
  refine ⟨length_vertexPolygonAdjacency nV I C, ?_⟩
  intro v hv p
  rw [incident_vertexPolygonAdjacency nV I C v hv, mem_listedPolygons, cornerCount_pos_iff]

/-- C11, exercised on the quad-plus-triangle mesh: the triangle (polygon 1) is
listed at the shared vertex 0, of which it is local corner 0. -/
theorem adjacency_membership_witness :
    1 ∈ incident (vertexPolygonAdjacency 6 quadTriI quadTriC) 0 :=
  ((adjacency_membership 6 quadTriI quadTriC).2 0 (by decide) 1).mpr
    ⟨by decide, 0, by decide, by decide⟩

/-- C12 (as stated, refuted). A polygon with corners `(0, 1, 0)` uses vertex 0 twice;
the adjacency loop pushes the polygon id once per corner, so `VF[0] = [0, 0]` lists
face 0 twice. -/
theorem adjacency_nodup_counterexample :
    incident (vertexPolygonAdjacency 2 [0, 1, 0] [0, 3]) 0 = [0, 0] ∧
    ¬ (incident (vertexPolygonAdjacency 2 [0, 1, 0] [0, 3]) 0).Nodup := by
  decide

/-- C12 (amended). In the `VF` built by the polygonal engine from `(I, C)`, no face
id occurs more than once in `VF[v]` if and only if no polygon has `v` at more than
one of its corners. -/
theorem adjacency_nodup_iff (nV : Nat) (I C : List Nat) (v : Nat) (hv : v < nV) :
    (incident (vertexPolygonAdjacency nV I C) v).Nodup ↔
      ∀ p, p < C.length - 1 → cornerCount I C p v ≤ 1 := by
  rw [incident_vertexPolygonAdjacency nV I C v hv, List.nodup_iff_count_le_one]
  constructor
  · intro h p hp
    have := h p
    rwa [count_listedPolygons, if_pos hp] at this
  · intro h p
    rw [count_listedPolygons]
    by_cases hp : p < C.length - 1
    · rw [if_pos hp]; exact h p hp
    · rw [if_neg hp]; exact Nat.zero_le 1

/-- C12 (amended), exercised on vertex 0 of the quad-plus-triangle mesh. -/
theorem adjacency_nodup_iff_witness :
    (∀ p, p < quadTriC.length - 1 → cornerCount quadTriI quadTriC p 0 ≤ 1) ∧
    (incident (vertexPolygonAdjacency 6 quadTriI quadTriC) 0).Nodup :=
  ⟨by decide, (adjacency_nodup_iff 6 quadTriI quadTriC 0 (by decide)).mpr (by decide)⟩

/-- C13. Adjacency order and multiplicity: in the `VF` built by the polygonal engine
from `(I, C)`, each `VF[v]` lists face ids in discovery order (non-decreasing face
index), and the number of occurrences of polygon `p` in `VF[v]` equals the number of
corners of `p` equal to `v`; so a polygon with two corners at `v` is listed twice. -/
theorem adjacency_order_multiplicity (nV : Nat) (I C : List Nat) (v : Nat) (hv : v < nV) :
    (incident (vertexPolygonAdjacency nV I C) v).Pairwise (· ≤ ·) ∧
    (∀ p, p < C.length - 1 →
      (incident (vertexPolygonAdjacency nV I C) v).count p = cornerCount I C p v) ∧
    ∀ p, p < C.length - 1 → cornerCount I C p v = 2 →
      (incident (vertexPolygonAdjacency nV I C) v).count p = 2 := by
  rw [incident_vertexPolygonAdjacency nV I C v hv]
  refine ⟨pairwise_le_listedPolygons I C v _, ?_, ?_⟩
  · intro p hp
    rw [count_listedPolygons, if_pos hp]
  · intro p hp h2
    rw [count_listedPolygons, if_pos hp, h2]

/-- C13, exercised on a polygon `(0, 1, 0)` that uses vertex 0 twice. -/
theorem adjacency_order_multiplicity_witness :
    (incident (vertexPolygonAdjacency 2 [0, 1, 0] [0, 3]) 0).count 0 = 2 :=
  (adjacency_order_multiplicity 2 [0, 1, 0] [0, 3] 0 (by decide)).2.2 0 (by decide)
    (by decide)

/-- C14. Triangulator-contract check: with the `assert`s modelled as a checked fault
and a valid offset table (`C[0] = 0`, `C` strictly increasing), the polygonal
engine completes (its `NN` reconstruction succeeds) if and only if `FF` has exactly
`C[m]` rows and, for every polygon `p` and local corner `i` in `[0, np)`, row `C[p]+i`
of `FF` is `(I[C[p] + (i mod np)], I[C[p] + ((i+1) mod np)], |V| + p)`; and when `FF`
is the fan triangulation in the stated order, no assertion fails. -/
theorem reconstruction_succeeds_iff {K : Type} [LinearOrderedField K] (num : Numeric K)
    (nV : Nat) (I C : List Nat) (corner_threshold : K) (FN : List (Vec3 K))
    (FF : List (Nat × Nat × Nat)) (AA : List K) (uninitN uninitNN : Nat → Vec3 K)
    (h0 : idx C 0 = 0) (hC : StrictlyIncreasing C) :
    ((∃ N NN, per_corner_normals_polygonal num nV I C corner_threshold FN FF AA
        uninitN uninitNN = some (N, NN)) ↔
      FF.length = idx C (C.length - 1) ∧
      ∀ p, p < C.length - 1 → ∀ i, i < idx C (p + 1) - idx C p →
        FF[idx C p + i]? = some (idx I (idx C p + (i % (idx C (p + 1) - idx C p))),
          idx I (idx C p + ((i + 1) % (idx C (p + 1) - idx C p))), nV + p)) ∧
    ∃ N NN, per_corner_normals_polygonal num nV I C corner_threshold FN
      (fanTriangulation nV I C) AA uninitN uninitNN = some (N, NN) := by
  constructor
  · rw [polygonal_some_iff, fanContract_iff_of_valid nV I C FF h0 hC]
  · exact (polygonal_some_iff num nV I C corner_threshold FN (fanTriangulation nV I C) AA
      uninitN uninitNN).mpr (fanContract_fanTriangulation nV I C)

/-- C14, exercised on the quad-plus-triangle mesh: its fan triangulation is the
table `quadTriFF`, and the engine completes on it. -/
theorem reconstruction_succeeds_iff_witness :
    (idx quadTriC 0 = 0 ∧ StrictlyIncreasing quadTriC) ∧
    fanTriangulation 6 quadTriI quadTriC = quadTriFF ∧
    ∃ N NN, per_corner_normals_polygonal (⟨Real.cos, Real.sqrt, Real.pi⟩ : Numeric ℝ) 6
      quadTriI quadTriC 60 [(0, 0, 1), (0, 3 / 5, 4 / 5)] (fanTriangulation 6 quadTriI quadTriC)
      [2, 2, 2, 2, 1, 1, 1] (fun _ => (7, 7, 7)) (fun _ => (9, 9, 9)) = some (N, NN) :=
  ⟨⟨by decide, by decide⟩, by decide,
    (reconstruction_succeeds_iff (⟨Real.cos, Real.sqrt, Real.pi⟩ : Numeric ℝ) 6 quadTriI
      quadTriC 60 [(0, 0, 1), (0, 3 / 5, 4 / 5)] quadTriFF [2, 2, 2, 2, 1, 1, 1]
      (fun _ => (7, 7, 7)) (fun _ => (9, 9, 9)) (by decide) (by decide)).2⟩

/-- C15. Corner coverage and triangle index: under `C[0] = 0`, `C` strictly increasing
and `C[m] = len(I)`,
(1) every row `r` of `N` in `[0, len(I))` is the row `C[p]+i` of exactly one corner
`(p, i)`, and the body for a corner writes that row only, so every row is written
exactly once;
(2) `N` does not depend on the memory contents left by `resize` (no row stays
uninitialised);
(3) when `FF` meets the triangulator contract, the running triangle counter `k` on
entry to the body for polygon `p`, local corner `i` equals `C[p]+i`, and it ends at
`len(I)`;
(4) hence whenever the engine completes, `NN[3(C[p]+i)] = N[C[p]+i]`. -/
theorem coverage_and_triangle_index {K : Type} [LinearOrderedField K] (num : Numeric K)
    (nV : Nat) (I C : List Nat) (corner_threshold : K) (FN : List (Vec3 K))
    (FF : List (Nat × Nat × Nat)) (AA : List K) (uninitN uninitNN : Nat → Vec3 K)
    (h0 : idx C 0 = 0) (hC : StrictlyIncreasing C)
    (hlast : idx C (C.length - 1) = I.length) :
    ((∀ r, r < I.length → ∃! c : Nat × Nat,
        c.1 < C.length - 1 ∧ c.2 < idx C (c.1 + 1) - idx C c.1 ∧ idx C c.1 + c.2 = r) ∧
      ∀ (VF : List (List Nat)) (N : List (Vec3 K)) (p i s : Nat), s ≠ idx C p + i →
        row (polyCornerStep num I C FN AA VF corner_threshold p (row FN p) N i) s
          = row N s) ∧
    (∀ u : Nat → Vec3 K,
      polygonN num nV I C corner_threshold FN AA u
        = polygonN num nV I C corner_threshold FN AA uninitN) ∧
    (FanContract nV I C FF →
      (∀ p i, p < C.length - 1 → i < idx C (p + 1) - idx C p →
        ∃ NN1, (List.range i).foldl
            (nnCornerStep nV I C FN FF (polygonN num nV I C corner_threshold FN AA uninitN)
              p (idx C (p + 1) - idx C p))
            ((List.range p).foldl
              (nnFaceStep nV I C FN FF (polygonN num nV I C corner_threshold FN AA uninitN))
              (some (0, resized (FF.length * 3) uninitNN)))
          = some (idx C p + i, NN1)) ∧
      ∃ NN1, (List.range (C.length - 1)).foldl
          (nnFaceStep nV I C FN FF (polygonN num nV I C corner_threshold FN AA uninitN))
          (some (0, resized (FF.length * 3) uninitNN))
        = some (I.length, NN1)) ∧
    ∀ N NN, per_corner_normals_polygonal num nV I C corner_threshold FN FF AA
        uninitN uninitNN = some (N, NN) →
      ∀ p i, p < C.length - 1 → i < idx C (p + 1) - idx C p →
        row NN (3 * (idx C p + i)) = row N (idx C p + i) := by
  refine ⟨⟨?_, ?_⟩, ?_, ?_, ?_⟩
  · intro r hr
    obtain ⟨p, i, hp, hi, e⟩ := exists_corner_of_lt C r (C.length - 1) (by omega) (by omega)
    refine ⟨(p, i), ⟨hp, hi, e.symm⟩, ?_⟩
    rintro ⟨q, j⟩ ⟨hq, hj, e2⟩
    dsimp only at hq hj e2
    obtain ⟨a, b⟩ := corner_unique C hC hq hp hj hi (by omega)
    rw [a, b]
  · intro VF N p i s hs
    by_cases hr : idx C p + i < N.length
    · exact (polyCornerStep_spec num I C FN AA VF corner_threshold p i (row FN p) N hr).2.2 s hs
    · have hset : ∀ (M : List (Vec3 K)) (x : Vec3 K), M.length = N.length →
          M.set (idx C p + i) x = M := by
        intro M x hM
        exact List.set_eq_of_length_le (by omega)
      have hacc : ∀ (inc : List Nat) (M : List (Vec3 K)), M.length = N.length →
          accumulateWeighted num FN AA corner_threshold (row FN p) inc (idx C p + i) M = M := by
        intro inc
        induction inc with
        | nil => intro M _; rfl
        | cons k ks ih =>
          intro M hM
          simp only [accumulateWeighted, List.foldl_cons]
          split
          · rw [hset M _ hM]; exact ih M hM
          · exact ih M hM
      simp only [polyCornerStep]
      rw [hset N 0 rfl, hacc _ N rfl, hset N _ rfl]
  · intro u
    exact polygonN_uninit_irrelevant num nV I C corner_threshold FN AA u uninitN h0 hC hlast
  · intro hc
    constructor
    · intro p i hp hi
      obtain ⟨NN1, e⟩ := nn_state_at nV I C FN FF
        (polygonN num nV I C corner_threshold FN AA uninitN)
        (resized (FF.length * 3) uninitNN) (length_resized _ _) hc p i hp (by omega)
      rw [triangleIndex_eq_idx C h0 hC p (by omega)] at e
      exact ⟨NN1, e⟩
    · obtain ⟨NN1, e⟩ := nn_state_final nV I C FN FF
        (polygonN num nV I C corner_threshold FN AA uninitN)
        (resized (FF.length * 3) uninitNN) (length_resized _ _) hc
      rw [triangleIndex_eq_idx C h0 hC _ le_rfl, hlast] at e
      exact ⟨NN1, e⟩
  · intro N NN h p i hp hi
    simp only [per_corner_normals_polygonal] at h
    cases hNN : polygonNN nV I C FN FF
        (polygonN num nV I C corner_threshold FN AA uninitN) uninitNN with
    | none =>
      rw [hNN] at h
      exact absurd h (by simp)
    | some NN1 =>
      rw [hNN] at h
      simp only [Option.some.injEq, Prod.mk.injEq] at h
      obtain ⟨hN, hNN1⟩ := h
      subst hN
      subst hNN1
      have hc := contract_of_polygonNN nV I C FN FF _ uninitNN NN1 hNN
      obtain ⟨NN2, e2, _, r2⟩ := polygonNN_of_contract nV I C FN FF
        (polygonN num nV I C corner_threshold FN AA uninitN) uninitNN hc
      rw [hNN] at e2
      simp only [Option.some.injEq] at e2
      subst e2
      obtain ⟨a, _, _⟩ := r2 p i hp hi
      simp only [Nat.add_zero, Nat.mod_eq_of_lt hi] at a
      rw [triangleIndex_add C p i, triangleIndex_eq_idx C h0 hC p (by omega)] at a
      rw [Nat.mul_comm]
      exact a

/-- C15, exercised on the quad-plus-triangle mesh: two different memory contents
after `resize` give the same `N`. -/
theorem coverage_and_triangle_index_witness :
    (idx quadTriC 0 = 0 ∧ StrictlyIncreasing quadTriC ∧
      idx quadTriC (quadTriC.length - 1) = quadTriI.length) ∧
    polygonN (⟨Real.cos, Real.sqrt, Real.pi⟩ : Numeric ℝ) 6 quadTriI quadTriC 60
        [(0, 0, 1), (0, 3 / 5, 4 / 5)] [2, 2, 2, 2, 1, 1, 1] (fun _ => 0)
      = polygonN (⟨Real.cos, Real.sqrt, Real.pi⟩ : Numeric ℝ) 6 quadTriI quadTriC 60
        [(0, 0, 1), (0, 3 / 5, 4 / 5)] [2, 2, 2, 2, 1, 1, 1] (fun _ => (7, 7, 7)) :=
  ⟨⟨by decide, by decide, by decide⟩,
    (coverage_and_triangle_index (⟨Real.cos, Real.sqrt, Real.pi⟩ : Numeric ℝ) 6 quadTriI
      quadTriC 60 [(0, 0, 1), (0, 3 / 5, 4 / 5)] quadTriFF [2, 2, 2, 2, 1, 1, 1]
      (fun _ => (7, 7, 7)) (fun _ => (9, 9, 9)) (by decide) (by decide) (by decide)).2.1
      (fun _ => 0)⟩

/-- C17. Order independence (exact arithmetic, any ordered field): for both engines,
replacing every `VF[v]` by a permutation of itself leaves the whole output `CN`
(respectively `N`) unchanged; and a corner's row depends only on `FN` (and `AA`),
the corner's own face normal and the multiset `VF[v]`: two corners, even of
different meshes, with the same face normal and incident lists that are
permutations of one another receive the same row. -/
theorem order_independence {K : Type} [LinearOrderedField K] (num : Numeric K)
    (corner_threshold : K) (FN : List (Vec3 K)) (AA : List K) :
    (∀ (F : IndexMatrix) (VF1 VF2 : List (List Nat)), PermutedAdjacency VF1 VF2 →
      per_corner_normals num F FN VF1 corner_threshold
        = per_corner_normals num F FN VF2 corner_threshold) ∧
    (∀ (nV : Nat) (I C : List Nat) (VF2 : List (List Nat)) (uninit : Nat → Vec3 K),
      PermutedAdjacency (vertexPolygonAdjacency nV I C) VF2 →
      polygonNLoop num I C corner_threshold FN AA VF2 uninit
        = polygonN num nV I C corner_threshold FN AA uninit) ∧
    (∀ (F1 F2 : IndexMatrix) (VF1 VF2 : List (List Nat)) (i1 j1 i2 j2 : Nat),
      i1 < F1.rows → j1 < F1.cols → i2 < F2.rows → j2 < F2.cols →
      row FN i1 = row FN i2 →
      (incident VF1 (F1.coeff i1 j1)).Perm (incident VF2 (F2.coeff i2 j2)) →
      row (per_corner_normals num F1 FN VF1 corner_threshold) (i1 * F1.cols + j1)
        = row (per_corner_normals num F2 FN VF2 corner_threshold) (i2 * F2.cols + j2)) ∧
    ∀ (I1 C1 I2 C2 : List Nat) (VF1 VF2 : List (List Nat)) (u1 u2 : Nat → Vec3 K)
      (p1 i1 p2 i2 : Nat),
      StrictlyIncreasing C1 → idx C1 (C1.length - 1) ≤ I1.length →
      StrictlyIncreasing C2 → idx C2 (C2.length - 1) ≤ I2.length →
      p1 < C1.length - 1 → i1 < idx C1 (p1 + 1) - idx C1 p1 →
      p2 < C2.length - 1 → i2 < idx C2 (p2 + 1) - idx C2 p2 →
      row FN p1 = row FN p2 →
      (incident VF1 (idx I1 (idx C1 p1 + i1))).Perm (incident VF2 (idx I2 (idx C2 p2 + i2))) →
      row (polygonNLoop num I1 C1 corner_threshold FN AA VF1 u1) (idx C1 p1 + i1)
        = row (polygonNLoop num I2 C2 corner_threshold FN AA VF2 u2) (idx C2 p2 + i2) := by
  refine ⟨?_, ?_, ?_, ?_⟩
  · intro F VF1 VF2 h
    exact per_corner_normals_perm num F FN VF1 VF2 corner_threshold h
  · intro nV I C VF2 uninit h
    exact (polygonNLoop_perm num I C corner_threshold FN AA _ VF2 uninit h).symm
  · intro F1 F2 VF1 VF2 i1 j1 i2 j2 hi1 hj1 hi2 hj2 hfn hperm
    rw [per_corner_normals_row num F1 FN VF1 corner_threshold i1 j1 hi1 hj1,
      per_corner_normals_row num F2 FN VF2 corner_threshold i2 j2 hi2 hj2, hfn,
      gatedSum_perm num FN corner_threshold (row FN i2) hperm]
  · intro I1 C1 I2 C2 VF1 VF2 u1 u2 p1 i1 p2 i2 hC1 hl1 hC2 hl2 hp1 hi1 hp2 hi2 hfn hperm
    rw [polygonNLoop_row num I1 C1 corner_threshold FN AA VF1 u1 hC1 hl1 p1 i1 hp1 hi1,
      polygonNLoop_row num I2 C2 corner_threshold FN AA VF2 u2 hC2 hl2 p2 i2 hp2 hi2, hfn,
      weightedSum_perm num FN AA corner_threshold (row FN p2) hperm]

/-- C17, exercised on the two-triangle mesh with the lists of the two shared
vertices reversed. -/
theorem order_independence_witness :
    PermutedAdjacency twoTrianglesVF [[0], [1, 0], [1, 0], [1]] ∧
    per_corner_normals (⟨Real.cos, Real.sqrt, Real.pi⟩ : Numeric ℝ) twoTriangles
        [(0, 0, 1), (0, 1, 0)] twoTrianglesVF 100
      = per_corner_normals (⟨Real.cos, Real.sqrt, Real.pi⟩ : Numeric ℝ) twoTriangles
        [(0, 0, 1), (0, 1, 0)] [[0], [1, 0], [1, 0], [1]] 100 :=
  ⟨by decide,
    (order_independence (⟨Real.cos, Real.sqrt, Real.pi⟩ : Numeric ℝ) 100
      [(0, 0, 1), (0, 1, 0)] []).1 twoTriangles twoTrianglesVF [[0], [1, 0], [1, 0], [1]]
      (by decide)⟩

end Claims

end PerCornerNormals
